import Mathlib

/-!
Verification of the foton graph engine (src/foton/graph.py, src/foton/base.py).

The Python code is shallowly embedded: Python dicts with string keys become
association lists that preserve insertion order, Python strings become lists
of characters, exceptions become an explicit error type threaded through
results, and a node's arbitrary execute method becomes a function field.
-/

set_option autoImplicit false

namespace Foton

/-- Node and port names: Python strings, modelled as lists of characters. -/
abbrev Name := List Char

/-- Python dict with string keys: an association list in insertion order. -/
abbrev Dict (α : Type) := List (Name × α)

/-- Dict lookup d.get(k) / d[k]: first (and only) binding of the key. -/
def dictGet {α : Type} (k : Name) : Dict α → Option α
  | [] => none
  | (k₁, v) :: rest => if k₁ = k then some v else dictGet k rest

/-- Dict assignment d[k] = v: overwrite an existing binding in place,
otherwise append the new binding at the end (dict insertion order). -/
def dictSet {α : Type} (k : Name) (v : α) : Dict α → Dict α
  | [] => [(k, v)]
  | (k₁, v₁) :: rest => if k₁ = k then (k₁, v) :: rest else (k₁, v₁) :: dictSet k v rest

/-- Characters removed by Python str.strip (the whitespace used in practice). -/
def isSpaceChar (c : Char) : Bool :=
  c == ' ' || c == '\t' || c == '\n' || c == '\r'

/-- Python str.strip(): drop leading and trailing whitespace. -/
def stripChars (l : Name) : Name :=
  ((l.dropWhile isSpaceChar).reverse.dropWhile isSpaceChar).reverse

/-- Python s.split(sep, 1): split at the first occurrence of sep, or none when
sep does not occur.  The test sep in s is (splitFirst sep s).isSome. -/
def splitFirst (sep : Name) : Name → Option (Name × Name)
  | [] => none
  | c :: rest =>
    if sep.isPrefixOf (c :: rest) then some ([], (c :: rest).drop sep.length)
    else
      match splitFirst sep rest with
      | none => none
      | some (a, b) => some (c :: a, b)

/-- Python s.split(c) for a one-character separator: split at every occurrence.
The result is always nonempty. -/
def splitAllChar (c : Char) : Name → List Name
  | [] => [[]]
  | x :: xs =>
    match splitAllChar c xs with
    | [] => [[]]
    | h :: t => if x = c then [] :: h :: t else (x :: h) :: t

/-- Parsed wire, as built by foton.base.Wire from a source and target spec. -/
structure Wire where
  source_node : Name
  source_output : Name
  target_node : Name
  target_input : Name
deriving DecidableEq

/-- Exceptions raised by the foton code, one constructor per raise site. -/
inductive PyErr where
  /-- ValueError in Graph.add: node with this name already exists. -/
  | duplicateNode (name : Name)
  /-- ValueError in Graph.wire: connection string has no arrow. -/
  | invalidConnection (connection : Name)
  /-- ValueError in Wire.init: source must specify an output port. -/
  | sourceMustSpecifyOutput (source : Name)
  /-- ValueError in Graph.run: cannot run empty graph. -/
  | emptyGraph
  /-- ValueError in Graph.topological_sort: circular dependency detected. -/
  | circularDependency
  /-- KeyError from the dict access self.nodes[node_name] in Graph.run. -/
  | keyError (key : Name)
  /-- RuntimeError in Graph.run wrapping an exception from node.execute. -/
  | nodeExecutionError (node : Name) (msg : Name)
deriving DecidableEq

/-- foton.base.Wire.init: parse the source spec (which must contain a dot,
split once) and the target spec (bare node names default the target input
port to the source output port). -/
def mkWire (source target : Name) : Except PyErr Wire :=
  match splitFirst ['.'] source with
  | none => .error (.sourceMustSpecifyOutput source)
  | some (sn, so) =>
    match splitFirst ['.'] target with
    | some (tn, ti) =>
      .ok { source_node := sn, source_output := so, target_node := tn, target_input := ti }
    | none =>
      .ok { source_node := sn, source_output := so, target_node := target, target_input := so }

/-- foton.base.NodeOutput: the data dict.  Python values (type Any) are
modelled as Option U, with none standing for the Python value None. -/
structure NodeOutput (U : Type) where
  data : Dict (Option U)
  metadata : Dict (Option U)
deriving DecidableEq

/-- NodeOutput.get(key) with default None: a missing key and a stored None
both come back as none. -/
def NodeOutput.get {U : Type} (o : NodeOutput U) (key : Name) : Option U :=
  match dictGet key o.data with
  | some v => v
  | none => none

/-- foton.base.Node: exec is the subclass execute(**inputs) body, which may
raise (modelled as Except carrying the exception text); inputs is the mutable
pending-input dict, only ever written by set_input with non-None values. -/
structure Node (U : Type) where
  name : Name
  exec : Dict U → Except Name (NodeOutput U)
  inputs : Dict U

/-- foton.base.Node.set_input. -/
def Node.set_input {U : Type} (n : Node U) (key : Name) (value : U) : Node U :=
  { n with inputs := dictSet key value n.inputs }

/-- foton.graph.ExecutionResult. -/
structure ExecutionResult (U : Type) where
  outputs : Dict (NodeOutput U)
  execution_order : List Name
deriving DecidableEq

/-- foton.graph.Graph: registered nodes (dict, insertion = registration
order), wire list, and the execution cache. -/
structure Graph (U : Type) where
  nodes : Dict (Node U)
  wires : List Wire
  execution_cache : Option (ExecutionResult U)

/-- Graph() constructor. -/
def Graph.empty (U : Type) : Graph U :=
  { nodes := [], wires := [], execution_cache := none }

/-- foton.graph.Graph.add.  Returns the graph as left by the call together
with the raised exception, if any: a duplicate name raises before any
mutation, so the graph comes back unchanged. -/
def Graph.add {U : Type} (g : Graph U) (name : Name) (node : Node U) : Graph U × Option PyErr :=
  if (dictGet name g.nodes).isSome then (g, some (.duplicateNode name))
  else
    ({ nodes := dictSet name { node with name := name } g.nodes,
       wires := g.wires, execution_cache := none }, none)

/-- Inner loop of Graph.wire for comma-separated fan-in sources: each wire is
constructed and appended in turn, so an exception from a later malformed
source leaves the wires appended for the earlier sources in place (and the
cache untouched, since the cache reset comes after the loop). -/
def wireFanIn {U : Type} (g : Graph U) (target : Name) : List Name → Graph U × Option PyErr
  | [] => ({ g with execution_cache := none }, none)
  | src :: rest =>
    match mkWire src target with
    | .error e => (g, some e)
    | .ok w => wireFanIn { g with wires := g.wires ++ [w] } target rest

/-- foton.graph.Graph.wire. -/
def Graph.wire {U : Type} (g : Graph U) (connection : Name) : Graph U × Option PyErr :=
  match splitFirst ['-', '>'] connection with
  | none => (g, some (.invalidConnection connection))
  | some (rawSource, rawTarget) =>
    let source := stripChars rawSource
    let target := stripChars rawTarget
    if (splitFirst [','] source).isSome then
      wireFanIn g target ((splitAllChar ',' source).map stripChars)
    else
      match mkWire source target with
      | .error e => (g, some e)
      | .ok w => ({ g with wires := g.wires ++ [w], execution_cache := none }, none)

/-- One wire of Graph.build_dependency_graph: ensure the target is a key, then
record the source as a dependency of the target unless already present. -/
def addWireDep (deps : Dict (List Name)) (w : Wire) : Dict (List Name) :=
  match dictGet w.target_node deps with
  | none => deps ++ [(w.target_node, [w.source_node])]
  | some ds =>
    if w.source_node ∈ ds then deps
    else dictSet w.target_node (ds ++ [w.source_node]) deps

/-- foton.graph.Graph.build_dependency_graph: every registered node starts
with no dependencies (in registration order), then the wires add entries. -/
def buildDependencyGraph (nodeNames : List Name) (wires : List Wire) : Dict (List Name) :=
  wires.foldl addWireDep (nodeNames.map fun n => (n, []))

/-- Body of the inner for-loop of the topological sort: when node n is popped,
walk the dependency dict in order; every node listing n as a dependency has
its in-degree decremented, and is appended to the queue if it reaches zero. -/
def scanStep (n : Name) (st : Dict Int × List Name) (p : Name × List Name) : Dict Int × List Name :=
  if n ∈ p.2 then
    let d := (dictGet p.1 st.1).getD 0 - 1
    if d = 0 then (dictSet p.1 d st.1, st.2 ++ [p.1])
    else (dictSet p.1 d st.1, st.2)
  else st

/-- The full inner scan over dependencies.items() for a popped node n. -/
def scanDecrement (deps : Dict (List Name)) (n : Name) (inDeg : Dict Int) : Dict Int × List Name :=
  deps.foldl (scanStep n) (inDeg, [])

/-- The while-loop of Graph.topological_sort (Kahn's algorithm).  The Python
loop runs until the queue is empty; fuel bounds the number of iterations, and
the fuel chosen by topoSortNames is proved never to run out. -/
def kahnLoop (deps : Dict (List Name)) : Nat → List Name → Dict Int → List Name → List Name
  | 0, _, _, result => result
  | _ + 1, [], _, result => result
  | fuel + 1, n :: queue, inDeg, result =>
    let s := scanDecrement deps n inDeg
    kahnLoop deps fuel (queue ++ s.2) s.1 (result ++ [n])

/-- The in-degree dict of _topological_sort: every dependency-dict key mapped
to the length of its dependency list (the number of distinct dependencies). -/
def initInDeg (deps : Dict (List Name)) : Dict Int :=
  deps.map fun p => (p.1, (p.2.length : Int))

/-- The initial queue of _topological_sort: zero-in-degree keys in dict order. -/
def initQueue (deps : Dict (List Name)) : List Name :=
  ((initInDeg deps).filter fun p => p.2 == 0).map Prod.fst

/-- The list produced by the while-loop of _topological_sort. -/
def kahnResult (deps : Dict (List Name)) : List Name :=
  kahnLoop deps (deps.length + 1) (initQueue deps) (initInDeg deps) []

/-- foton.graph.Graph.topological_sort: build the dependency dict, count
in-degrees, seed the queue with the zero-in-degree keys in dict order, run
Kahn's loop, and fail unless every registered node was ordered. -/
def topoSortNames (nodeNames : List Name) (wires : List Wire) : Except PyErr (List Name) :=
  let deps := buildDependencyGraph nodeNames wires
  if (kahnResult deps).length = nodeNames.length then .ok (kahnResult deps)
  else .error .circularDependency

/-- Graph.topological_sort on a graph value. -/
def Graph.topologicalSort {U : Type} (g : Graph U) : Except PyErr (List Name) :=
  topoSortNames (g.nodes.map Prod.fst) g.wires

/-- Graph.propagate_data for a single wire.  The loop body sits in a bare
try/except that discards every exception, including the ValueError it itself
raises when the source output is missing or None, so a failing wire is
skipped: a pending input is assigned only when the source node has run, its
output dict yields a non-None value for the source port, and the target node
is registered. -/
def propagateWire {U : Type} (outs : Dict (NodeOutput U)) (nodes : Dict (Node U)) (w : Wire) :
    Dict (Node U) :=
  match dictGet w.source_node outs with
  | none => nodes
  | some so =>
    match so.get w.source_output with
    | none => nodes
    | some v =>
      match dictGet w.target_node nodes with
      | none => nodes
      | some nd => dictSet w.target_node (nd.set_input w.target_input v) nodes

/-- foton.graph.Graph.propagate_data: fold over the wires in registration
order (a later wire to the same target slot overwrites an earlier one). -/
def propagateData {U : Type} (wires : List Wire) (outs : Dict (NodeOutput U))
    (nodes : Dict (Node U)) : Dict (Node U) :=
  wires.foldl (propagateWire outs) nodes

/-- The for-loop of Graph.run over the execution order.  Per iteration: look
the node up (a KeyError here aborts the run), propagate data if any outputs
exist (mutating the node dict, so the node is re-read afterwards, matching
the in-place mutation of the shared Python object), then execute.  An
execute exception is wrapped in a RuntimeError and aborts the run; the node
dict (pending inputs) as mutated so far is returned alongside. -/
def runLoop {U : Type} (wires : List Wire) :
    List Name → Dict (Node U) → Dict (NodeOutput U) →
    Dict (Node U) × Except PyErr (Dict (NodeOutput U))
  | [], nodes, outs => (nodes, .ok outs)
  | n :: order, nodes, outs =>
    match dictGet n nodes with
    | none => (nodes, .error (.keyError n))
    | some nd₀ =>
      let nodes₁ := if outs.isEmpty then nodes else propagateData wires outs nodes
      let nd := (dictGet n nodes₁).getD nd₀
      match nd.exec nd.inputs with
      | .error msg => (nodes₁, .error (.nodeExecutionError n msg))
      | .ok out => runLoop wires order nodes₁ (dictSet n out outs)

/-- foton.graph.Graph.run.  Returns the graph as left by the call (pending
inputs mutated by propagation persist; the cache is set only on success)
together with the result or the raised exception. -/
def Graph.run {U : Type} (g : Graph U) : Graph U × Except PyErr (ExecutionResult U) :=
  if g.nodes.isEmpty then (g, .error .emptyGraph)
  else
    match g.topologicalSort with
    | .error e => (g, .error e)
    | .ok order =>
      match runLoop g.wires order g.nodes [] with
      | (nodes₁, .error e) => ({ g with nodes := nodes₁ }, .error e)
      | (nodes₁, .ok outs) =>
        ({ nodes := nodes₁, wires := g.wires,
           execution_cache := some { outputs := outs, execution_order := order } },
         .ok { outputs := outs, execution_order := order })

/-- Direct wire dependency relation of a graph: some wire feeds node a into
node b, so b depends on a. -/
def wireDep {U : Type} (g : Graph U) (a b : Name) : Prop :=
  ∃ w ∈ g.wires, w.source_node = a ∧ w.target_node = b

/-- Every wire endpoint names a registered node. -/
def registeredWires {U : Type} (g : Graph U) : Prop :=
  ∀ w ∈ g.wires, w.source_node ∈ g.nodes.map Prod.fst ∧ w.target_node ∈ g.nodes.map Prod.fst

/-- Node a appears strictly before node b in the list l. -/
def appearsBefore (l : List Name) (a b : Name) : Prop :=
  ∃ i, ∃ j, ∃ hi : i < l.length, ∃ hj : j < l.length,
    i < j ∧ l.get ⟨i, hi⟩ = a ∧ l.get ⟨j, hj⟩ = b

section DictLemmas

variable {α β : Type}

theorem dictGet_cons_self {k : Name} {p : Name × α} {l : Dict α} (h : p.1 = k) :
    dictGet k (p :: l) = some p.2 := by
  simp [dictGet, h]

theorem dictGet_cons_ne {k : Name} {p : Name × α} {l : Dict α} (h : p.1 ≠ k) :
    dictGet k (p :: l) = dictGet k l := by
  simp [dictGet, h]

theorem dictGet_dictSet_self (k : Name) (v : α) (l : Dict α) :
    dictGet k (dictSet k v l) = some v := by
  induction l with
  | nil => simp [dictGet, dictSet]
  | cons p rest ih =>
    by_cases h : p.1 = k
    · simp [dictGet, dictSet, h]
    · simp [dictGet, dictSet, h, ih]

theorem dictGet_dictSet_ne {k₁ k₂ : Name} (h : k₂ ≠ k₁) (v : α) (l : Dict α) :
    dictGet k₁ (dictSet k₂ v l) = dictGet k₁ l := by
  induction l with
  | nil => simp [dictGet, dictSet, h]
  | cons p rest ih =>
    by_cases hp : p.1 = k₂
    · simp [dictGet, dictSet, hp, h]
    · simp [dictGet, dictSet, hp, ih]

theorem map_fst_dictSet_of_mem {k : Name} {l : Dict α} (h : k ∈ l.map Prod.fst) (v : α) :
    (dictSet k v l).map Prod.fst = l.map Prod.fst := by
  induction l with
  | nil => simp at h
  | cons p rest ih =>
    by_cases hp : p.1 = k
    · simp [dictSet, hp]
    · have hk : k ∈ rest.map Prod.fst := by
        simp only [List.map_cons, List.mem_cons] at h
        rcases h with h | h
        · exact absurd h.symm hp
        · exact h
      simp [dictSet, hp, ih hk]

theorem dictGet_isSome_iff (k : Name) (l : Dict α) :
    (dictGet k l).isSome = true ↔ k ∈ l.map Prod.fst := by
  induction l with
  | nil =>
    constructor
    · intro h
      simp [dictGet] at h
    · intro h
      simp at h
  | cons p rest ih =>
    by_cases hp : p.1 = k
    · constructor
      · intro _
        exact List.mem_map.mpr ⟨p, List.mem_cons_self p rest, hp⟩
      · intro _
        rw [dictGet_cons_self hp]
        rfl
    · rw [dictGet_cons_ne hp, ih]
      simp only [List.map_cons, List.mem_cons]
      constructor
      · intro h
        exact Or.inr h
      · rintro (h | h)
        · exact absurd h.symm hp
        · exact h

theorem dictGet_eq_none_iff (k : Name) (l : Dict α) :
    dictGet k l = none ↔ k ∉ l.map Prod.fst := by
  rw [← dictGet_isSome_iff]
  cases dictGet k l <;> simp

theorem mem_of_dictGet_eq_some {k : Name} {v : α} {l : Dict α} (h : dictGet k l = some v) :
    (k, v) ∈ l := by
  induction l with
  | nil => simp [dictGet] at h
  | cons p rest ih =>
    by_cases hp : p.1 = k
    · rw [dictGet_cons_self hp, Option.some_inj] at h
      have hkv : (k, v) = p := by
        rw [← hp, ← h]
      rw [hkv]
      exact List.mem_cons_self p rest
    · rw [dictGet_cons_ne hp] at h
      exact List.mem_cons_of_mem _ (ih h)

theorem dictGet_eq_some_of_mem {k : Name} {v : α} {l : Dict α}
    (hnd : (l.map Prod.fst).Nodup) (h : (k, v) ∈ l) : dictGet k l = some v := by
  induction l with
  | nil => simp at h
  | cons p rest ih =>
    simp only [List.map_cons] at hnd
    rcases List.mem_cons.mp h with h | h
    · subst h
      exact dictGet_cons_self rfl
    · have hk : k ∈ rest.map Prod.fst := List.mem_map.mpr ⟨(k, v), h, rfl⟩
      have hp : p.1 ≠ k := by
        rintro rfl
        exact (List.nodup_cons.mp hnd).1 hk
      rw [dictGet_cons_ne hp]
      exact ih (List.nodup_cons.mp hnd).2 h

theorem dictGet_map_pair (k : Name) (l : Dict α) (f : Name × α → β) :
    dictGet k (l.map fun p => (p.1, f p)) = (dictGet k l).map fun v => f (k, v) := by
  induction l with
  | nil => simp [dictGet]
  | cons p rest ih =>
    by_cases hp : p.1 = k
    · subst hp
      simp [dictGet]
    · simp [dictGet, hp, ih]

theorem dictGet_append (k : Name) (l₁ l₂ : Dict α) :
    dictGet k (l₁ ++ l₂) = (dictGet k l₁).or (dictGet k l₂) := by
  induction l₁ with
  | nil => simp [dictGet]
  | cons p rest ih =>
    by_cases hp : p.1 = k
    · simp [dictGet, hp]
    · simp [dictGet, hp, ih]

theorem map_fst_dictSet_of_not_mem {k : Name} {l : Dict α} (h : k ∉ l.map Prod.fst) (v : α) :
    (dictSet k v l).map Prod.fst = l.map Prod.fst ++ [k] := by
  induction l with
  | nil => simp [dictSet]
  | cons p rest ih =>
    simp only [List.map_cons, List.mem_cons, not_or] at h
    have hp : p.1 ≠ k := fun e => h.1 e.symm
    simp [dictSet, hp, ih h.2]

end DictLemmas

section ParsingLemmas

theorem splitFirst_eq_none_iff (c : Char) (l : Name) :
    splitFirst [c] l = none ↔ c ∉ l := by
  induction l with
  | nil => simp [splitFirst]
  | cons x xs ih =>
    by_cases hx : c = x
    · subst hx
      simp [splitFirst, List.isPrefixOf]
    · have hpre : [c].isPrefixOf (x :: xs) = false := by
        simp [List.isPrefixOf, hx]
      rw [show splitFirst [c] (x :: xs) =
          (match splitFirst [c] xs with
            | none => none
            | some (a, b) => some (x :: a, b)) from by
        simp [splitFirst, hpre]]
      rcases hs : splitFirst [c] xs with _ | p
      · simp [ih.mp hs, hx]
      · have : c ∈ xs := by
          by_contra hc
          rw [ih.mpr hc] at hs
          exact Option.noConfusion hs
        simp [this, hx]

theorem splitFirst_single_append {c : Char} {l : Name} (r : Name) (h : c ∉ l) :
    splitFirst [c] (l ++ c :: r) = some (l, r) := by
  induction l with
  | nil => simp [splitFirst, List.isPrefixOf]
  | cons x xs ih =>
    simp only [List.mem_cons, not_or] at h
    have hx : c ≠ x := h.1
    have hpre : [c].isPrefixOf (x :: (xs ++ c :: r)) = false := by
      simp [List.isPrefixOf, hx]
    rw [show splitFirst [c] ((x :: xs) ++ c :: r) =
        (match splitFirst [c] (xs ++ c :: r) with
          | none => none
          | some (a, b) => some (x :: a, b)) from by
      simp [splitFirst, hpre]]
    rw [ih h.2]

end ParsingLemmas

section WireBuildLemmas

theorem wireFanIn_error_shape {U : Type} :
    ∀ (srcs : List Name) (g : Graph U) (target : Name) (g₁ : Graph U) (e : PyErr),
      wireFanIn g target srcs = (g₁, some e) →
      g₁.nodes = g.nodes ∧ g₁.execution_cache = g.execution_cache ∧
        ∃ ws, g₁.wires = g.wires ++ ws := by
  intro srcs
  induction srcs with
  | nil =>
    intro g target g₁ e h
    simp [wireFanIn] at h
  | cons src rest ih =>
    intro g target g₁ e h
    rcases hw : mkWire src target with e₁ | w
    · rw [wireFanIn, hw] at h
      obtain ⟨hg, _⟩ := Prod.mk.injEq .. ▸ h
      refine ⟨by rw [← hg], by rw [← hg], [], by simp [← hg]⟩
    · rw [wireFanIn, hw] at h
      obtain ⟨h₁, h₂, ws, h₃⟩ := ih _ target g₁ e h
      exact ⟨h₁, h₂, [w] ++ ws, by simpa using h₃⟩

end WireBuildLemmas

section BuildDepsLemmas

theorem mem_dictSet_values {α : Type} (k : Name) (v : α) :
    ∀ (l : Dict α), ∀ p ∈ dictSet k v l, p.2 = v ∨ p ∈ l := by
  intro l
  induction l with
  | nil =>
    intro p hp
    rcases List.mem_singleton.mp hp with rfl
    exact Or.inl rfl
  | cons q rest ih =>
    intro p hp
    by_cases hq : q.1 = k
    · simp only [dictSet, if_pos hq] at hp
      rcases List.mem_cons.mp hp with rfl | hp
      · exact Or.inl rfl
      · exact Or.inr (List.mem_cons_of_mem _ hp)
    · simp only [dictSet, if_neg hq] at hp
      rcases List.mem_cons.mp hp with rfl | hp
      · exact Or.inr (List.mem_cons_self _ _)
      · rcases ih p hp with h | h
        · exact Or.inl h
        · exact Or.inr (List.mem_cons_of_mem _ h)

theorem addWireDep_map_fst (deps : Dict (List Name)) (w : Wire) :
    (addWireDep deps w).map Prod.fst =
      if w.target_node ∈ deps.map Prod.fst then deps.map Prod.fst
      else deps.map Prod.fst ++ [w.target_node] := by
  unfold addWireDep
  rcases hg : dictGet w.target_node deps with _ | ds
  · rw [if_neg ((dictGet_eq_none_iff _ _).mp hg)]
    simp
  · have hmem : w.target_node ∈ deps.map Prod.fst := by
      rw [← dictGet_isSome_iff, hg]
      rfl
    rw [if_pos hmem]
    by_cases hs : w.source_node ∈ ds
    · simp [hs]
    · simp [hs, map_fst_dictSet_of_mem hmem]

theorem addWireDep_getD (deps : Dict (List Name)) (w : Wire) (b a : Name) :
    (a ∈ (dictGet b (addWireDep deps w)).getD [] ↔
      a ∈ (dictGet b deps).getD [] ∨ (w.source_node = a ∧ w.target_node = b)) := by
  unfold addWireDep
  by_cases hb : w.target_node = b
  · subst hb
    rcases hg : dictGet w.target_node deps with _ | ds
    · rw [dictGet_append, hg]
      simp [dictGet, eq_comm]
    · by_cases hs : w.source_node ∈ ds
      · simp only [hg, if_pos hs, Option.getD_some]
        constructor
        · intro h
          exact Or.inl h
        · rintro (h | ⟨h, -⟩)
          · exact h
          · rw [← h]
            exact hs
      · simp only [hg, if_neg hs, dictGet_dictSet_self, Option.getD_some]
        simp [eq_comm]
  · rcases hg : dictGet w.target_node deps with _ | ds
    · rw [dictGet_append]
      rcases hgb : dictGet b deps with _ | ds₁
      · simp [dictGet, Ne.symm hb, hb]
      · simp [hb]
    · by_cases hs : w.source_node ∈ ds
      · simp [hs, hg, hb]
      · simp [hs, hg, dictGet_dictSet_ne hb, hb]

theorem addWireDep_values_nodup {deps : Dict (List Name)} (hv : ∀ p ∈ deps, p.2.Nodup)
    (w : Wire) : ∀ p ∈ addWireDep deps w, p.2.Nodup := by
  intro p hp
  rcases hg : dictGet w.target_node deps with _ | ds
  · have he : addWireDep deps w = deps ++ [(w.target_node, [w.source_node])] := by
      unfold addWireDep
      rw [hg]
    rw [he] at hp
    rcases List.mem_append.mp hp with h | h
    · exact hv p h
    · rcases List.mem_singleton.mp h with rfl
      simp
  · have he : addWireDep deps w =
        if w.source_node ∈ ds then deps
        else dictSet w.target_node (ds ++ [w.source_node]) deps := by
      unfold addWireDep
      rw [hg]
    rw [he] at hp
    by_cases hs : w.source_node ∈ ds
    · rw [if_pos hs] at hp
      exact hv p hp
    · rw [if_neg hs] at hp
      rcases mem_dictSet_values _ _ _ p hp with h | h
      · rw [h]
        have hds : ds.Nodup := hv _ (mem_of_dictGet_eq_some hg)
        rw [List.nodup_append]
        refine ⟨hds, List.nodup_singleton _, ?_⟩
        intro a ha hb
        rcases List.mem_singleton.mp hb with rfl
        exact hs ha
      · exact hv p h

theorem buildFold_spec :
    ∀ (ws : List Wire) (deps₀ : Dict (List Name)),
      (deps₀.map Prod.fst).Nodup → (∀ p ∈ deps₀, p.2.Nodup) →
      ((ws.foldl addWireDep deps₀).map Prod.fst).Nodup ∧
      (deps₀.map Prod.fst <+: (ws.foldl addWireDep deps₀).map Prod.fst) ∧
      (∀ p ∈ ws.foldl addWireDep deps₀, p.2.Nodup) ∧
      (∀ t, t ∈ (ws.foldl addWireDep deps₀).map Prod.fst ↔
        t ∈ deps₀.map Prod.fst ∨ ∃ w ∈ ws, w.target_node = t) ∧
      (∀ b a, a ∈ (dictGet b (ws.foldl addWireDep deps₀)).getD [] ↔
        a ∈ (dictGet b deps₀).getD [] ∨ ∃ w ∈ ws, w.source_node = a ∧ w.target_node = b) := by
  intro ws
  induction ws with
  | nil =>
    intro deps₀ hnd hv
    refine ⟨hnd, List.prefix_refl _, hv, ?_, ?_⟩
    · intro t
      simp
    · intro b a
      simp
  | cons w ws ih =>
    intro deps₀ hnd hv
    have hnd₁ : ((addWireDep deps₀ w).map Prod.fst).Nodup := by
      rw [addWireDep_map_fst]
      by_cases hmem : w.target_node ∈ deps₀.map Prod.fst
      · rw [if_pos hmem]
        exact hnd
      · rw [if_neg hmem, List.nodup_append]
        refine ⟨hnd, List.nodup_singleton _, ?_⟩
        intro a ha hb
        rcases List.mem_singleton.mp hb with rfl
        exact hmem ha
    have hpre₁ : deps₀.map Prod.fst <+: (addWireDep deps₀ w).map Prod.fst := by
      rw [addWireDep_map_fst]
      by_cases hmem : w.target_node ∈ deps₀.map Prod.fst
      · rw [if_pos hmem]
      · rw [if_neg hmem]
        exact ⟨[w.target_node], rfl⟩
    have hv₁ := addWireDep_values_nodup hv w
    obtain ⟨h1, h2, h3, h4, h5⟩ := ih (addWireDep deps₀ w) hnd₁ hv₁
    refine ⟨h1, hpre₁.trans h2, h3, ?_, ?_⟩
    · intro t
      rw [List.foldl_cons] at *
      rw [h4 t, addWireDep_map_fst]
      by_cases hmem : w.target_node ∈ deps₀.map Prod.fst
      · rw [if_pos hmem]
        constructor
        · rintro (h | ⟨w₁, hw₁, hw₂⟩)
          · exact Or.inl h
          · exact Or.inr ⟨w₁, List.mem_cons_of_mem _ hw₁, hw₂⟩
        · rintro (h | ⟨w₁, hw₁, hw₂⟩)
          · exact Or.inl h
          · rcases List.mem_cons.mp hw₁ with rfl | hw₁
            · exact Or.inl (hw₂ ▸ hmem)
            · exact Or.inr ⟨w₁, hw₁, hw₂⟩
      · rw [if_neg hmem]
        simp only [List.mem_append, List.mem_singleton]
        constructor
        · rintro ((h | h) | ⟨w₁, hw₁, hw₂⟩)
          · exact Or.inl h
          · exact Or.inr ⟨w, List.mem_cons_self _ _, h.symm⟩
          · exact Or.inr ⟨w₁, List.mem_cons_of_mem _ hw₁, hw₂⟩
        · rintro (h | ⟨w₁, hw₁, hw₂⟩)
          · exact Or.inl (Or.inl h)
          · rcases List.mem_cons.mp hw₁ with rfl | hw₁
            · exact Or.inl (Or.inr hw₂.symm)
            · exact Or.inr ⟨w₁, hw₁, hw₂⟩
    · intro b a
      rw [List.foldl_cons] at *
      rw [h5 b a, addWireDep_getD]
      constructor
      · rintro ((h | h) | ⟨w₁, hw₁, hw₂⟩)
        · exact Or.inl h
        · exact Or.inr ⟨w, List.mem_cons_self _ _, h⟩
        · exact Or.inr ⟨w₁, List.mem_cons_of_mem _ hw₁, hw₂⟩
      · rintro (h | ⟨w₁, hw₁, hw₂⟩)
        · exact Or.inl (Or.inl h)
        · rcases List.mem_cons.mp hw₁ with rfl | hw₁
          · exact Or.inl (Or.inr hw₂)
          · exact Or.inr ⟨w₁, hw₁, hw₂⟩

theorem map_fst_init (names : List Name) :
    ((names.map fun n => (n, ([] : List Name))).map Prod.fst) = names := by
  induction names with
  | nil => simp
  | cons n rest ih => simp [ih]

theorem dictGet_const_init (names : List Name) (b : Name) :
    dictGet b (names.map fun n => (n, ([] : List Name))) =
      if b ∈ names then some [] else none := by
  induction names with
  | nil => simp [dictGet]
  | cons n rest ih =>
    by_cases hn : n = b
    · subst hn
      simp [dictGet]
    · simp only [List.map_cons]
      rw [dictGet_cons_ne hn, ih]
      simp [Ne.symm hn, hn]

theorem buildDeps_keys_nodup {names : List Name} (hnd : names.Nodup) (wires : List Wire) :
    ((buildDependencyGraph names wires).map Prod.fst).Nodup :=
  (buildFold_spec wires _ (by rw [map_fst_init]; exact hnd) (by simp)).1

theorem buildDeps_values_nodup (names : List Name) (wires : List Wire)
    (hnd : names.Nodup) : ∀ p ∈ buildDependencyGraph names wires, p.2.Nodup :=
  (buildFold_spec wires _ (by rw [map_fst_init]; exact hnd) (by simp)).2.2.1

theorem buildDeps_names_prefix {names : List Name} (hnd : names.Nodup) (wires : List Wire) :
    names <+: (buildDependencyGraph names wires).map Prod.fst := by
  have := (buildFold_spec wires (names.map fun n => (n, ([] : List Name)))
    (by rw [map_fst_init]; exact hnd) (by simp)).2.1
  rw [map_fst_init] at this
  exact this

theorem buildDeps_keys_mem {names : List Name} (hnd : names.Nodup) (wires : List Wire)
    (t : Name) : t ∈ (buildDependencyGraph names wires).map Prod.fst ↔
      t ∈ names ∨ ∃ w ∈ wires, w.target_node = t := by
  have := (buildFold_spec wires (names.map fun n => (n, ([] : List Name)))
    (by rw [map_fst_init]; exact hnd) (by simp)).2.2.2.1 t
  simpa using this

theorem buildDeps_mem_iff {names : List Name} (hnd : names.Nodup) (wires : List Wire)
    (b a : Name) : a ∈ (dictGet b (buildDependencyGraph names wires)).getD [] ↔
      ∃ w ∈ wires, w.source_node = a ∧ w.target_node = b := by
  have := (buildFold_spec wires (names.map fun n => (n, ([] : List Name)))
    (by rw [map_fst_init]; exact hnd) (by simp)).2.2.2.2 b a
  rw [dictGet_const_init] at this
  by_cases hb : b ∈ names
  · rw [if_pos hb] at this
    simpa using this
  · rw [if_neg hb] at this
    simpa using this

theorem buildDeps_keys_eq_of_registered {names : List Name} (hnd : names.Nodup)
    {wires : List Wire} (hreg : ∀ w ∈ wires, w.target_node ∈ names) :
    (buildDependencyGraph names wires).map Prod.fst = names := by
  obtain ⟨extra, hext⟩ := buildDeps_names_prefix hnd wires
  have hknd := buildDeps_keys_nodup hnd wires
  rcases extra with _ | ⟨x, extra⟩
  · rw [← hext]
    simp
  · exfalso
    have hx : x ∈ (buildDependencyGraph names wires).map Prod.fst := by
      rw [← hext]
      simp
    rcases (buildDeps_keys_mem hnd wires x).mp hx with h | ⟨w, hw, hwt⟩
    · rw [← hext] at hknd
      rcases List.nodup_append.mp hknd with ⟨-, -, hdisj⟩
      exact hdisj h (List.mem_cons_self _ _)
    · rw [← hext] at hknd
      rcases List.nodup_append.mp hknd with ⟨-, -, hdisj⟩
      exact hdisj (hwt ▸ hreg w hw) (List.mem_cons_self _ _)

end BuildDepsLemmas

section ScanLemmas

theorem scanStep_of_not_mem {n : Name} (st : Dict Int × List Name) {p : Name × List Name}
    (h : n ∉ p.2) : scanStep n st p = st := by
  simp [scanStep, h]

theorem scanStep_of_mem {n : Name} {st : Dict Int × List Name} {p : Name × List Name} {v : Int}
    (h : n ∈ p.2) (hv : dictGet p.1 st.1 = some v) :
    scanStep n st p =
      (dictSet p.1 (v - 1) st.1, if v - 1 = 0 then st.2 ++ [p.1] else st.2) := by
  by_cases hd : v - 1 = 0 <;> simp [scanStep, h, hv, hd]

theorem scanFold_spec (n : Name) :
    ∀ (l : Dict (List Name)) (acc : Dict Int) (newly₀ : List Name),
      (l.map Prod.fst).Nodup →
      (∀ p ∈ l, p.1 ∈ acc.map Prod.fst) →
      ((l.foldl (scanStep n) (acc, newly₀)).1.map Prod.fst = acc.map Prod.fst) ∧
      (∀ t, t ∉ l.map Prod.fst →
        dictGet t (l.foldl (scanStep n) (acc, newly₀)).1 = dictGet t acc) ∧
      (∀ t ds v, (t, ds) ∈ l → dictGet t acc = some v →
        dictGet t (l.foldl (scanStep n) (acc, newly₀)).1 = some (if n ∈ ds then v - 1 else v)) ∧
      (∀ t, t ∈ (l.foldl (scanStep n) (acc, newly₀)).2 ↔
        t ∈ newly₀ ∨ ∃ ds, (t, ds) ∈ l ∧ n ∈ ds ∧ dictGet t acc = some 1) ∧
      ((newly₀.Nodup ∧ (∀ t ∈ newly₀, t ∉ l.map Prod.fst)) →
        (l.foldl (scanStep n) (acc, newly₀)).2.Nodup) := by
  intro l
  induction l with
  | nil =>
    intro acc newly₀ hnd hpres
    refine ⟨rfl, fun t _ => rfl, by simp, ?_, fun h => h.1⟩
    intro t
    constructor
    · intro h
      exact Or.inl h
    · rintro (h | ⟨ds, hds, -, -⟩)
      · exact h
      · exact absurd hds (List.not_mem_nil _)
  | cons p l ih =>
    intro acc newly₀ hnd hpres
    simp only [List.map_cons] at hnd
    have hnd2 := List.nodup_cons.mp hnd
    have hp1 : p.1 ∈ acc.map Prod.fst := hpres p (List.mem_cons_self p l)
    obtain ⟨v, hv⟩ := Option.isSome_iff_exists.mp ((dictGet_isSome_iff p.1 acc).mpr hp1)
    by_cases hn : n ∈ p.2
    · have hstep := @scanStep_of_mem n (acc, newly₀) p v hn hv
      set acc₁ := dictSet p.1 (v - 1) acc with hacc₁
      set newly₁ := if v - 1 = 0 then newly₀ ++ [p.1] else newly₀ with hnewly₁
      have hkeys₁ : acc₁.map Prod.fst = acc.map Prod.fst := map_fst_dictSet_of_mem hp1 _
      have hget_ne : ∀ t, t ≠ p.1 → dictGet t acc₁ = dictGet t acc := by
        intro t ht
        exact dictGet_dictSet_ne (Ne.symm ht) _ _
      have hpres₁ : ∀ q ∈ l, q.1 ∈ acc₁.map Prod.fst := by
        intro q hq
        rw [hkeys₁]
        exact hpres q (List.mem_cons_of_mem _ hq)
      obtain ⟨ih1, ih2, ih3, ih4, ih5⟩ := ih acc₁ newly₁ hnd2.2 hpres₁
      have hfold : (p :: l).foldl (scanStep n) (acc, newly₀) =
          l.foldl (scanStep n) (acc₁, newly₁) := by
        rw [List.foldl_cons, hstep]
      rw [hfold]
      refine ⟨by rw [ih1, hkeys₁], ?_, ?_, ?_, ?_⟩
      · intro t ht
        simp only [List.map_cons, List.mem_cons, not_or] at ht
        rw [ih2 t ht.2, hget_ne t ht.1]
      · intro t ds w htds hw
        rcases List.mem_cons.mp htds with heq | hmem
        · have ht : t = p.1 := congrArg Prod.fst heq
          have hds : ds = p.2 := congrArg Prod.snd heq
          have htl : t ∉ l.map Prod.fst := by
            rw [ht]
            exact hnd2.1
          rw [ih2 t htl, ht, dictGet_dictSet_self]
          have hwv : w = v := by
            rw [ht, hv] at hw
            exact (Option.some_inj.mp hw).symm
          rw [hds, if_pos hn, hwv]
        · have ht : t ≠ p.1 := by
            rintro rfl
            exact hnd2.1 (List.mem_map.mpr ⟨(p.1, ds), hmem, rfl⟩)
          exact ih3 t ds w hmem (by rw [hget_ne t ht]; exact hw)
      · intro t
        rw [ih4 t]
        constructor
        · rintro (h | ⟨ds, hds, hnds, hget⟩)
          · rw [hnewly₁] at h
            by_cases hd : v - 1 = 0
            · rw [if_pos hd] at h
              rcases List.mem_append.mp h with h | h
              · exact Or.inl h
              · rcases List.mem_singleton.mp h with rfl
                refine Or.inr ⟨p.2, List.mem_cons_self p l, hn, ?_⟩
                rw [hv]
                congr 1
                omega
            · rw [if_neg hd] at h
              exact Or.inl h
          · have ht : t ≠ p.1 := by
              rintro rfl
              exact hnd2.1 (List.mem_map.mpr ⟨(p.1, ds), hds, rfl⟩)
            refine Or.inr ⟨ds, List.mem_cons_of_mem _ hds, hnds, ?_⟩
            rw [← hget_ne t ht]
            exact hget
        · rintro (h | ⟨ds, hds, hnds, hget⟩)
          · left
            rw [hnewly₁]
            by_cases hd : v - 1 = 0
            · rw [if_pos hd]
              exact List.mem_append_left _ h
            · rw [if_neg hd]
              exact h
          · rcases List.mem_cons.mp hds with heq | hmem
            · left
              have ht : t = p.1 := congrArg Prod.fst heq
              have hv1 : v = 1 := by
                rw [ht, hv] at hget
                exact Option.some_inj.mp hget
              rw [hnewly₁, if_pos (by omega)]
              rw [ht]
              exact List.mem_append_right _ (List.mem_singleton.mpr rfl)
            · have ht : t ≠ p.1 := by
                rintro rfl
                exact hnd2.1 (List.mem_map.mpr ⟨(p.1, ds), hmem, rfl⟩)
              refine Or.inr ⟨ds, hmem, hnds, ?_⟩
              rw [hget_ne t ht]
              exact hget
      · rintro ⟨hnn, hdisj⟩
        refine ih5 ⟨?_, ?_⟩
        · rw [hnewly₁]
          by_cases hd : v - 1 = 0
          · rw [if_pos hd, List.nodup_append]
            refine ⟨hnn, List.nodup_singleton _, ?_⟩
            intro a ha hb
            rcases List.mem_singleton.mp hb with rfl
            exact hdisj p.1 ha (List.mem_map.mpr ⟨p, List.mem_cons_self p l, rfl⟩)
          · rw [if_neg hd]
            exact hnn
        · intro t htn
          rw [hnewly₁] at htn
          by_cases hd : v - 1 = 0
          · rw [if_pos hd] at htn
            rcases List.mem_append.mp htn with h | h
            · intro hc
              exact hdisj t h (by rw [List.map_cons]; exact List.mem_cons_of_mem _ hc)
            · rcases List.mem_singleton.mp h with rfl
              exact hnd2.1
          · rw [if_neg hd] at htn
            intro hc
            exact hdisj t htn (by rw [List.map_cons]; exact List.mem_cons_of_mem _ hc)
    · have hstep := @scanStep_of_not_mem n (acc, newly₀) p hn
      obtain ⟨ih1, ih2, ih3, ih4, ih5⟩ := ih acc newly₀ hnd2.2
        (fun q hq => hpres q (List.mem_cons_of_mem _ hq))
      have hfold : (p :: l).foldl (scanStep n) (acc, newly₀) =
          l.foldl (scanStep n) (acc, newly₀) := by
        rw [List.foldl_cons, hstep]
      rw [hfold]
      refine ⟨ih1, ?_, ?_, ?_, ?_⟩
      · intro t ht
        simp only [List.map_cons, List.mem_cons, not_or] at ht
        exact ih2 t ht.2
      · intro t ds w htds hw
        rcases List.mem_cons.mp htds with heq | hmem
        · have ht : t = p.1 := congrArg Prod.fst heq
          have hds : ds = p.2 := congrArg Prod.snd heq
          have htl : t ∉ l.map Prod.fst := by
            rw [ht]
            exact hnd2.1
          rw [ih2 t htl, hw, hds, if_neg hn]
        · exact ih3 t ds w hmem hw
      · intro t
        rw [ih4 t]
        constructor
        · rintro (h | ⟨ds, hds, hnds, hget⟩)
          · exact Or.inl h
          · exact Or.inr ⟨ds, List.mem_cons_of_mem _ hds, hnds, hget⟩
        · rintro (h | ⟨ds, hds, hnds, hget⟩)
          · exact Or.inl h
          · rcases List.mem_cons.mp hds with heq | hmem
            · exfalso
              have hds2 : ds = p.2 := congrArg Prod.snd heq
              exact hn (hds2 ▸ hnds)
            · exact Or.inr ⟨ds, hmem, hnds, hget⟩
      · rintro ⟨hnn, hdisj⟩
        refine ih5 ⟨hnn, ?_⟩
        intro t htn hc
        exact hdisj t htn (by rw [List.map_cons]; exact List.mem_cons_of_mem _ hc)

end ScanLemmas

section AppearsBeforeLemmas

theorem appearsBefore_extend {l l₂ : List Name} {a b : Name} (h : appearsBefore l a b) :
    appearsBefore (l ++ l₂) a b := by
  obtain ⟨i, j, hi, hj, hij, ha, hb⟩ := h
  have hi2 : i < (l ++ l₂).length := by
    rw [List.length_append]
    omega
  have hj2 : j < (l ++ l₂).length := by
    rw [List.length_append]
    omega
  refine ⟨i, j, hi2, hj2, hij, ?_, ?_⟩
  · rw [List.get_eq_getElem, List.getElem_append_left hi]
    rw [List.get_eq_getElem] at ha
    exact ha
  · rw [List.get_eq_getElem, List.getElem_append_left hj]
    rw [List.get_eq_getElem] at hb
    exact hb

theorem appearsBefore_snoc {l : List Name} {a b : Name} (ha : a ∈ l) :
    appearsBefore (l ++ [b]) a b := by
  obtain ⟨⟨i, hi⟩, hia⟩ := List.mem_iff_get.mp ha
  have hlen : (l ++ [b]).length = l.length + 1 := by simp
  refine ⟨i, l.length, by omega, by omega, hi, ?_, ?_⟩
  · rw [List.get_eq_getElem, List.getElem_append_left hi]
    rw [List.get_eq_getElem] at hia
    exact hia
  · rw [List.get_eq_getElem, List.getElem_append_right (Nat.le_refl _)]
    simp

theorem appearsBefore_mem_left {l : List Name} {a b : Name} (h : appearsBefore l a b) :
    a ∈ l := by
  obtain ⟨i, j, hi, hj, hij, ha, hb⟩ := h
  rw [← ha]
  exact l.get_mem _ _

theorem appearsBefore_trans {l : List Name} (hnd : l.Nodup) {a b c : Name}
    (h₁ : appearsBefore l a b) (h₂ : appearsBefore l b c) : appearsBefore l a c := by
  obtain ⟨i₁, j₁, hi₁, hj₁, hij₁, ha₁, hb₁⟩ := h₁
  obtain ⟨i₂, j₂, hi₂, hj₂, hij₂, hb₂, hc₂⟩ := h₂
  have hinj := List.nodup_iff_injective_get.mp hnd
  have hjeq : (⟨j₁, hj₁⟩ : Fin l.length) = ⟨i₂, hi₂⟩ := by
    apply hinj
    rw [hb₁, hb₂]
  have : j₁ = i₂ := congrArg Fin.val hjeq
  exact ⟨i₁, j₂, hi₁, hj₂, by omega, ha₁, hc₂⟩

theorem appearsBefore_irrefl {l : List Name} (hnd : l.Nodup) (a : Name) :
    ¬ appearsBefore l a a := by
  rintro ⟨i, j, hi, hj, hij, ha, hb⟩
  have hinj := List.nodup_iff_injective_get.mp hnd
  have : (⟨i, hi⟩ : Fin l.length) = ⟨j, hj⟩ := by
    apply hinj
    rw [ha, hb]
  have := congrArg Fin.val this
  simp at this
  omega

end AppearsBeforeLemmas

section CountLemmas

theorem filter_not_mem_nil_length (ds : List Name) :
    (ds.filter fun a => decide (a ∉ ([] : List Name))).length = ds.length := by
  simp

theorem count_zero_iff (ds acc : List Name) :
    (ds.filter fun a => decide (a ∉ acc)).length = 0 ↔ ∀ a ∈ ds, a ∈ acc := by
  rw [List.length_eq_zero, List.filter_eq_nil_iff]
  constructor
  · intro h a ha
    have := h a ha
    simp at this
    exact this
  · intro h a ha
    simp
    exact h a ha

theorem count_snoc_of_not_mem {ds : List Name} {n : Name} (hn : n ∉ ds) (acc : List Name) :
    (ds.filter fun a => decide (a ∉ acc ++ [n])).length =
      (ds.filter fun a => decide (a ∉ acc)).length := by
  have : ∀ a ∈ ds, (decide (a ∉ acc ++ [n])) = (decide (a ∉ acc)) := by
    intro a ha
    have hne : a ≠ n := by
      rintro rfl
      exact hn ha
    simp [hne]
  rw [List.filter_congr this]

theorem count_snoc_of_mem {ds : List Name} (hds : ds.Nodup) {n : Name} (hn : n ∈ ds)
    {acc : List Name} (hna : n ∉ acc) :
    ((ds.filter fun a => decide (a ∉ acc ++ [n])).length : Int) =
      ((ds.filter fun a => decide (a ∉ acc)).length : Int) - 1 := by
  have hsplit : (ds.filter fun a => decide (a ∉ acc ++ [n])) =
      ((ds.filter fun a => decide (a ∉ acc)).filter fun a => decide (a ≠ n)) := by
    rw [List.filter_filter]
    apply List.filter_congr
    intro a ha
    by_cases h1 : a ∈ acc <;> by_cases h2 : a = n <;> simp [h1, h2]
  have hmem : n ∈ ds.filter fun a => decide (a ∉ acc) := by
    rw [List.mem_filter]
    exact ⟨hn, by simp [hna]⟩
  have hnd₁ : (ds.filter fun a => decide (a ∉ acc)).Nodup := hds.filter _
  have herase : ((ds.filter fun a => decide (a ∉ acc)).filter fun a => decide (a ≠ n)) =
      (ds.filter fun a => decide (a ∉ acc)).erase n := by
    rw [List.Nodup.erase_eq_filter hnd₁]
    apply List.filter_congr
    intro a _
    simp [bne, beq_eq_decide, decide_not]
  have hlen := List.length_erase_of_mem hmem
  have hpos : 1 ≤ (ds.filter fun a => decide (a ∉ acc)).length :=
    List.length_pos.mpr (List.ne_nil_of_mem hmem)
  rw [hsplit, herase, hlen]
  omega

end CountLemmas

section KahnInvariant

theorem map_fst_map_pair {α β : Type} (l : Dict α) (f : Name × α → β) :
    ((l.map fun p => (p.1, f p)).map Prod.fst) = l.map Prod.fst := by
  induction l with
  | nil => simp
  | cons p rest ih => simp [ih]

theorem scanDecrement_def (deps : Dict (List Name)) (n : Name) (inDeg : Dict Int) :
    scanDecrement deps n inDeg = deps.foldl (scanStep n) (inDeg, []) := rfl

/-- Loop invariant of the Kahn while-loop: the in-degree dict covers exactly
the dependency keys and counts, per key, its dependencies not yet ordered;
the ordered and queued nodes are distinct keys and are exactly the keys of
in-degree zero; and every ordered node was ordered after its dependencies. -/
structure KahnInv (deps : Dict (List Name)) (queue acc : List Name) (inDeg : Dict Int) : Prop where
  dom : inDeg.map Prod.fst = deps.map Prod.fst
  deg : ∀ t ds, (t, ds) ∈ deps →
    dictGet t inDeg = some ((ds.filter fun a => decide (a ∉ acc)).length : Int)
  nodupAQ : (acc ++ queue).Nodup
  subAQ : ∀ t ∈ acc ++ queue, t ∈ deps.map Prod.fst
  zeroIff : ∀ t ds, (t, ds) ∈ deps → (dictGet t inDeg = some 0 ↔ t ∈ acc ++ queue)
  topo : ∀ t ds, (t, ds) ∈ deps → t ∈ acc → ∀ a ∈ ds, appearsBefore acc a t

theorem kahn_init {deps : Dict (List Name)} (hk : (deps.map Prod.fst).Nodup) :
    KahnInv deps (initQueue deps) [] (initInDeg deps) := by
  have hdom : (initInDeg deps).map Prod.fst = deps.map Prod.fst := map_fst_map_pair _ _
  have hknd : ((initInDeg deps).map Prod.fst).Nodup := by
    rw [hdom]
    exact hk
  have hget : ∀ t ds, (t, ds) ∈ deps →
      dictGet t (initInDeg deps) = some ((ds.length : Int)) := by
    intro t ds h
    rw [initInDeg, dictGet_map_pair, dictGet_eq_some_of_mem hk h]
    rfl
  refine ⟨hdom, ?_, ?_, ?_, ?_, ?_⟩
  · intro t ds h
    rw [hget t ds h, filter_not_mem_nil_length]
  · rw [List.nil_append]
    apply List.Nodup.sublist _ hknd
    exact List.Sublist.map _ (List.filter_sublist _)
  · intro t ht
    rw [List.nil_append] at ht
    obtain ⟨p, hp, hfst⟩ := List.mem_map.mp ht
    rw [← hdom]
    exact List.mem_map.mpr ⟨p, (List.mem_filter.mp hp).1, hfst⟩
  · intro t ds h
    rw [hget t ds h, List.nil_append]
    constructor
    · intro hz
      have hlen : ds.length = 0 := by
        have := Option.some_inj.mp hz
        exact_mod_cast this
      refine List.mem_map.mpr ⟨(t, (ds.length : Int)), ?_, rfl⟩
      rw [List.mem_filter]
      refine ⟨List.mem_map.mpr ⟨(t, ds), h, rfl⟩, ?_⟩
      simp [hlen]
    · intro hq
      obtain ⟨p, hp, hfst⟩ := List.mem_map.mp hq
      obtain ⟨hpmem, hpval⟩ := List.mem_filter.mp hp
      have hptv : (t, p.2) ∈ initInDeg deps := by
        rw [show (t, p.2) = p from by rw [← hfst]]
        exact hpmem
      have := dictGet_eq_some_of_mem hknd hptv
      rw [hget t ds h] at this
      have hz : p.2 = 0 := by
        have := beq_iff_eq.mp hpval
        exact this
      rw [this, hz]
  · intro t ds h ht
    simp at ht

theorem kahn_step {deps : Dict (List Name)} (hk : (deps.map Prod.fst).Nodup)
    (hd : ∀ p ∈ deps, p.2.Nodup) {n : Name} {queue acc : List Name} {inDeg : Dict Int}
    (hinv : KahnInv deps (n :: queue) acc inDeg) :
    KahnInv deps (queue ++ (scanDecrement deps n inDeg).2) (acc ++ [n])
      (scanDecrement deps n inDeg).1 := by
  have hnAQ : n ∈ acc ++ n :: queue := by simp
  have hnkey : n ∈ deps.map Prod.fst := hinv.subAQ n hnAQ
  have hdsn_ex : ∃ ds, (n, ds) ∈ deps := by
    obtain ⟨pn, hpn, hpn1⟩ := List.mem_map.mp hnkey
    exact ⟨pn.2, by rw [show (n, pn.2) = pn from by rw [← hpn1]]; exact hpn⟩
  obtain ⟨dsn, hdsn⟩ := hdsn_ex
  have huniq : ∀ t ds₁ ds₂, (t, ds₁) ∈ deps → (t, ds₂) ∈ deps → ds₁ = ds₂ := by
    intro t ds₁ ds₂ h₁ h₂
    have e₁ := dictGet_eq_some_of_mem hk h₁
    have e₂ := dictGet_eq_some_of_mem hk h₂
    exact Option.some_inj.mp (e₁.symm.trans e₂)
  have hdeg0 : dictGet n inDeg = some 0 := (hinv.zeroIff n dsn hdsn).mpr hnAQ
  have hcnt0 : ((dsn.filter fun a => decide (a ∉ acc)).length : Int) = 0 := by
    have h := hinv.deg n dsn hdsn
    rw [hdeg0] at h
    exact (Option.some_inj.mp h).symm
  have hsubn : ∀ a ∈ dsn, a ∈ acc :=
    (count_zero_iff dsn acc).mp (by exact_mod_cast hcnt0)
  have hnodup := hinv.nodupAQ
  have hdisj := (List.nodup_append.mp hnodup).2.2
  have hnacc : n ∉ acc := fun h => hdisj h (List.mem_cons_self _ _)
  have hpres : ∀ p ∈ deps, p.1 ∈ inDeg.map Prod.fst := by
    intro p hp
    rw [hinv.dom]
    exact List.mem_map.mpr ⟨p, hp, rfl⟩
  obtain ⟨s1, s2, s3, s4, s5⟩ := scanFold_spec n deps inDeg [] hk hpres
  have hnewly_mem : ∀ t, t ∈ (scanDecrement deps n inDeg).2 ↔
      ∃ ds, (t, ds) ∈ deps ∧ n ∈ ds ∧ dictGet t inDeg = some 1 := by
    intro t
    rw [scanDecrement_def]
    rw [s4 t]
    simp
  have hnewly_nodup : (scanDecrement deps n inDeg).2.Nodup := by
    rw [scanDecrement_def]
    exact s5 ⟨List.nodup_nil, by simp⟩
  have hget_new : ∀ t ds, (t, ds) ∈ deps →
      dictGet t (scanDecrement deps n inDeg).1 =
        some (if n ∈ ds then ((ds.filter fun a => decide (a ∉ acc)).length : Int) - 1
              else ((ds.filter fun a => decide (a ∉ acc)).length : Int)) := by
    intro t ds h
    rw [scanDecrement_def]
    exact s3 t ds _ h (hinv.deg t ds h)
  refine ⟨?_, ?_, ?_, ?_, ?_, ?_⟩
  · rw [scanDecrement_def, s1, hinv.dom]
  · intro t ds h
    rw [hget_new t ds h]
    by_cases hnds : n ∈ ds
    · rw [if_pos hnds]
      have := count_snoc_of_mem (hd (t, ds) h) hnds hnacc
      rw [this]
    · rw [if_neg hnds]
      rw [count_snoc_of_not_mem hnds acc]
  · have hre : (acc ++ [n]) ++ (queue ++ (scanDecrement deps n inDeg).2) =
        (acc ++ n :: queue) ++ (scanDecrement deps n inDeg).2 := by simp
    rw [hre, List.nodup_append]
    refine ⟨hnodup, hnewly_nodup, ?_⟩
    intro t ht htn
    obtain ⟨ds, hds, hnds, hget1⟩ := (hnewly_mem t).mp htn
    have h0 : dictGet t inDeg = some 0 := (hinv.zeroIff t ds hds).mpr ht
    rw [h0] at hget1
    have := Option.some_inj.mp hget1
    omega
  · intro t ht
    rcases List.mem_append.mp ht with h | h
    · rcases List.mem_append.mp h with h | h
      · exact hinv.subAQ t (List.mem_append_left _ h)
      · rcases List.mem_singleton.mp h with rfl
        exact hnkey
    · rcases List.mem_append.mp h with h | h
      · exact hinv.subAQ t (List.mem_append_right _ (List.mem_cons_of_mem _ h))
      · obtain ⟨ds, hds, -, -⟩ := (hnewly_mem t).mp h
        exact List.mem_map.mpr ⟨(t, ds), hds, rfl⟩
  · intro t ds h
    have hget := hinv.deg t ds h
    constructor
    · intro hz
      rw [hget_new t ds h] at hz
      by_cases hnds : n ∈ ds
      · rw [if_pos hnds] at hz
        have h1 : ((ds.filter fun a => decide (a ∉ acc)).length : Int) = 1 := by
          have := Option.some_inj.mp hz
          omega
        have htn : t ∈ (scanDecrement deps n inDeg).2 := by
          rw [hnewly_mem t]
          refine ⟨ds, h, hnds, ?_⟩
          rw [hget, h1]
        exact List.mem_append_right _ (List.mem_append_right _ htn)
      · rw [if_neg hnds] at hz
        have h0 : dictGet t inDeg = some 0 := by
          rw [hget, Option.some_inj.mp hz]
        have := (hinv.zeroIff t ds h).mp h0
        rcases List.mem_append.mp this with h1 | h1
        · exact List.mem_append_left _ (List.mem_append_left _ h1)
        · rcases List.mem_cons.mp h1 with rfl | h1
          · exact List.mem_append_left _ (List.mem_append_right _ (List.mem_singleton.mpr rfl))
          · exact List.mem_append_right _ (List.mem_append_left _ h1)
    · intro hmem
      rw [hget_new t ds h]
      rcases List.mem_append.mp hmem with h1 | h1
      · -- t was already ordered or is n itself: old degree was zero
        have hold : t ∈ acc ++ n :: queue := by
          rcases List.mem_append.mp h1 with h2 | h2
          · exact List.mem_append_left _ h2
          · rcases List.mem_singleton.mp h2 with rfl
            exact List.mem_append_right _ (List.mem_cons_self _ _)
        have h0 : dictGet t inDeg = some 0 := (hinv.zeroIff t ds h).mpr hold
        have hcnt : ((ds.filter fun a => decide (a ∉ acc)).length : Int) = 0 := by
          rw [hget] at h0
          exact Option.some_inj.mp h0
        have hall : ∀ a ∈ ds, a ∈ acc := (count_zero_iff ds acc).mp (by exact_mod_cast hcnt)
        have hnds : n ∉ ds := fun hc => hnacc (hall n hc)
        rw [if_neg hnds, hcnt]
      · rcases List.mem_append.mp h1 with h2 | h2
        · -- still in the queue: old degree was zero, same as previous case
          have hold : t ∈ acc ++ n :: queue :=
            List.mem_append_right _ (List.mem_cons_of_mem _ h2)
          have h0 : dictGet t inDeg = some 0 := (hinv.zeroIff t ds h).mpr hold
          have hcnt : ((ds.filter fun a => decide (a ∉ acc)).length : Int) = 0 := by
            rw [hget] at h0
            exact Option.some_inj.mp h0
          have hall : ∀ a ∈ ds, a ∈ acc := (count_zero_iff ds acc).mp (by exact_mod_cast hcnt)
          have hnds : n ∉ ds := fun hc => hnacc (hall n hc)
          rw [if_neg hnds, hcnt]
        · -- freshly enqueued: old degree was one and n is among the dependencies
          obtain ⟨ds₁, hds₁, hnds₁, hget₁⟩ := (hnewly_mem t).mp h2
          have hdeq : ds₁ = ds := huniq t ds₁ ds hds₁ h
          subst hdeq
          rw [if_pos hnds₁]
          rw [hget] at hget₁
          have := Option.some_inj.mp hget₁
          rw [this]
          rfl
  · intro t ds h ht a ha
    rcases List.mem_append.mp ht with h1 | h1
    · exact appearsBefore_extend (hinv.topo t ds h h1 a ha)
    · rcases List.mem_singleton.mp h1 with rfl
      have hdseq : ds = dsn := huniq t ds dsn h hdsn
      exact appearsBefore_snoc (hsubn a (hdseq ▸ ha))

end KahnInvariant

section KahnMaster

/-- Final guarantees of the Kahn loop: the result extends the pending queue,
is a duplicate-free list of dependency keys, contains every key whose
dependencies it contains, and orders every node after its dependencies. -/
def KahnOut (deps : Dict (List Name)) (start R : List Name) : Prop :=
  (start <+: R) ∧ R.Nodup ∧ (∀ t ∈ R, t ∈ deps.map Prod.fst) ∧
  (∀ t ds, (t, ds) ∈ deps → (∀ a ∈ ds, a ∈ R) → t ∈ R) ∧
  (∀ t ds, (t, ds) ∈ deps → t ∈ R → ∀ a ∈ ds, appearsBefore R a t)

theorem kahn_loop_master {deps : Dict (List Name)} (hk : (deps.map Prod.fst).Nodup)
    (hd : ∀ p ∈ deps, p.2.Nodup) :
    ∀ (fuel : Nat) (queue acc : List Name) (inDeg : Dict Int),
      KahnInv deps queue acc inDeg →
      deps.length + 1 ≤ fuel + acc.length →
      KahnOut deps (acc ++ queue) (kahnLoop deps fuel queue inDeg acc) ∧
      kahnLoop deps fuel queue inDeg acc = kahnLoop deps (fuel + 1) queue inDeg acc := by
  intro fuel
  induction fuel with
  | zero =>
    intro queue acc inDeg hinv hfuel
    exfalso
    have hsub : acc ⊆ deps.map Prod.fst := fun t ht =>
      hinv.subAQ t (List.mem_append_left _ ht)
    have hnd : acc.Nodup := hinv.nodupAQ.of_append_left
    have hle : acc.length ≤ (deps.map Prod.fst).length := (hnd.subperm hsub).length_le
    rw [List.length_map] at hle
    omega
  | succ fuel ih =>
    intro queue acc inDeg hinv hfuel
    rcases queue with _ | ⟨n, rest⟩
    · have hred : kahnLoop deps (fuel + 1) [] inDeg acc = acc := rfl
      have hred2 : kahnLoop deps (fuel + 1 + 1) [] inDeg acc = acc := rfl
      constructor
      · rw [hred, List.append_nil]
        refine ⟨List.prefix_refl _, ?_, ?_, ?_, ?_⟩
        · have := hinv.nodupAQ
          rwa [List.append_nil] at this
        · intro t ht
          exact hinv.subAQ t (by rw [List.append_nil]; exact ht)
        · intro t ds h hall
          have hcnt : ((ds.filter fun a => decide (a ∉ acc)).length : Int) = 0 := by
            have := (count_zero_iff ds acc).mpr hall
            exact_mod_cast this
          have h0 : dictGet t inDeg = some 0 := by
            rw [hinv.deg t ds h, hcnt]
          have := (hinv.zeroIff t ds h).mp h0
          rwa [List.append_nil] at this
        · exact hinv.topo
      · rw [hred, hred2]
    · have hstep := kahn_step hk hd hinv
      have hadeq : deps.length + 1 ≤ fuel + (acc ++ [n]).length := by
        rw [List.length_append, List.length_singleton]
        omega
      obtain ⟨hout, hstab⟩ := ih (rest ++ (scanDecrement deps n inDeg).2) (acc ++ [n])
        (scanDecrement deps n inDeg).1 hstep hadeq
      have hred : kahnLoop deps (fuel + 1) (n :: rest) inDeg acc =
          kahnLoop deps fuel (rest ++ (scanDecrement deps n inDeg).2)
            (scanDecrement deps n inDeg).1 (acc ++ [n]) := rfl
      have hred2 : kahnLoop deps (fuel + 1 + 1) (n :: rest) inDeg acc =
          kahnLoop deps (fuel + 1) (rest ++ (scanDecrement deps n inDeg).2)
            (scanDecrement deps n inDeg).1 (acc ++ [n]) := rfl
      constructor
      · rw [hred]
        obtain ⟨hpre, h2, h3, h4, h5⟩ := hout
        refine ⟨?_, h2, h3, h4, h5⟩
        have heq : acc ++ n :: rest = (acc ++ [n]) ++ rest := by simp
        rw [heq]
        refine List.IsPrefix.trans ?_ hpre
        exact ⟨(scanDecrement deps n inDeg).2, by simp⟩
      · rw [hred, hred2]
        exact hstab

theorem kahnResult_spec {deps : Dict (List Name)} (hk : (deps.map Prod.fst).Nodup)
    (hd : ∀ p ∈ deps, p.2.Nodup) :
    KahnOut deps (initQueue deps) (kahnResult deps) := by
  have hinit := kahn_init hk
  have hfuel : deps.length + 1 ≤ (deps.length + 1) + ([] : List Name).length := by simp
  have := (kahn_loop_master hk hd (deps.length + 1) (initQueue deps) [] (initInDeg deps)
    hinit hfuel).1
  rwa [List.nil_append] at this

theorem kahnResult_fuel_stable {deps : Dict (List Name)} (hk : (deps.map Prod.fst).Nodup)
    (hd : ∀ p ∈ deps, p.2.Nodup) :
    ∀ extra : Nat,
      kahnLoop deps (deps.length + 1 + extra) (initQueue deps) (initInDeg deps) [] =
        kahnResult deps := by
  intro extra
  induction extra with
  | zero => rfl
  | succ extra ih =>
    have hinit := kahn_init hk
    have hfuel : deps.length + 1 ≤ (deps.length + 1 + extra) + ([] : List Name).length := by
      simp
    have := (kahn_loop_master hk hd (deps.length + 1 + extra) (initQueue deps) []
      (initInDeg deps) hinit hfuel).2
    rw [show deps.length + 1 + (extra + 1) = deps.length + 1 + extra + 1 from by omega]
    rw [← ih, this]

end KahnMaster

section KahnCorollaries

/-- Direct dependency as recorded in a dependency dict. -/
def depRelOf (deps : Dict (List Name)) (a b : Name) : Prop :=
  a ∈ (dictGet b deps).getD []

theorem depRelOf_key {deps : Dict (List Name)} {a b : Name} (h : depRelOf deps a b) :
    ∃ ds, (b, ds) ∈ deps ∧ a ∈ ds := by
  unfold depRelOf at h
  rcases hg : dictGet b deps with _ | ds
  · rw [hg] at h
    simp at h
  · rw [hg] at h
    exact ⟨ds, mem_of_dictGet_eq_some hg, h⟩

theorem kahn_complete {deps : Dict (List Name)} (hk : (deps.map Prod.fst).Nodup)
    (hd : ∀ p ∈ deps, p.2.Nodup)
    (hclosed : ∀ t ds, (t, ds) ∈ deps → ∀ a ∈ ds, a ∈ deps.map Prod.fst)
    (hacyc : ∀ x, ¬ Relation.TransGen (depRelOf deps) x x) :
    ∀ t ∈ deps.map Prod.fst, t ∈ kahnResult deps := by
  obtain ⟨-, -, -, hcompl, -⟩ := kahnResult_spec hk hd
  by_contra hcon
  push_neg at hcon
  obtain ⟨t, htk, htR⟩ := hcon
  have hstep : ∀ x : {x : Name // x ∈ deps.map Prod.fst ∧ x ∉ kahnResult deps},
      ∃ y : {x : Name // x ∈ deps.map Prod.fst ∧ x ∉ kahnResult deps},
        depRelOf deps y.1 x.1 := by
    rintro ⟨x, hxk, hxR⟩
    obtain ⟨px, hpx, hpx1⟩ := List.mem_map.mp hxk
    have hpair : (x, px.2) ∈ deps := by
      rw [show (x, px.2) = px from by rw [← hpx1]]
      exact hpx
    have hnall : ¬ ∀ a ∈ px.2, a ∈ kahnResult deps := fun hall =>
      hxR (hcompl x px.2 hpair hall)
    push_neg at hnall
    obtain ⟨a, ha, haR⟩ := hnall
    refine ⟨⟨a, hclosed x px.2 hpair a ha, haR⟩, ?_⟩
    unfold depRelOf
    rw [dictGet_eq_some_of_mem hk hpair]
    exact ha
  choose f hf using hstep
  let seq : Nat → {x : Name // x ∈ deps.map Prod.fst ∧ x ∉ kahnResult deps} := fun k =>
    Nat.rec ⟨t, htk, htR⟩ (fun _ prev => f prev) k
  have hseq_succ : ∀ k, seq (k + 1) = f (seq k) := fun k => rfl
  have hchain : ∀ i j, i < j → Relation.TransGen (depRelOf deps) (seq j).1 (seq i).1 := by
    intro i j
    induction j with
    | zero =>
      intro h
      omega
    | succ j ihj =>
      intro hij
      by_cases hji : i = j
      · subst hji
        rw [hseq_succ i]
        exact Relation.TransGen.single (hf (seq i))
      · have hlt : i < j := by omega
        rw [hseq_succ j]
        exact Relation.TransGen.head (hf (seq j)) (ihj hlt)
  let F : Nat → ↥(deps.map Prod.fst).toFinset := fun k =>
    ⟨(seq k).1, by rw [List.mem_toFinset]; exact (seq k).2.1⟩
  obtain ⟨i, j, hij, hFij⟩ := Finite.exists_ne_map_eq_of_infinite F
  have hval : (seq i).1 = (seq j).1 := by
    have h2 := congrArg Subtype.val hFij
    exact h2
  rcases Nat.lt_or_ge i j with hlt | hge
  · have := hchain i j hlt
    rw [hval] at this
    exact hacyc _ this
  · have hlt : j < i := by omega
    have := hchain j i hlt
    rw [← hval] at this
    exact hacyc _ this

theorem kahn_transGen_appearsBefore {deps : Dict (List Name)}
    (hk : (deps.map Prod.fst).Nodup) (hd : ∀ p ∈ deps, p.2.Nodup) {a b : Name}
    (h : Relation.TransGen (depRelOf deps) a b) (hb : b ∈ kahnResult deps) :
    appearsBefore (kahnResult deps) a b := by
  obtain ⟨-, hnd, -, -, htopo⟩ := kahnResult_spec hk hd
  induction h with
  | single hr =>
    obtain ⟨ds, hpair, hmem⟩ := depRelOf_key hr
    exact htopo _ ds hpair hb a hmem
  | tail hab hr ih =>
    obtain ⟨ds, hpair, hmem⟩ := depRelOf_key hr
    have hstep := htopo _ ds hpair hb _ hmem
    have hbmem := appearsBefore_mem_left hstep
    exact appearsBefore_trans hnd (ih hbmem) hstep

theorem kahn_cycle_not_mem {deps : Dict (List Name)} (hk : (deps.map Prod.fst).Nodup)
    (hd : ∀ p ∈ deps, p.2.Nodup) {x : Name}
    (hcyc : Relation.TransGen (depRelOf deps) x x) : x ∉ kahnResult deps := by
  intro hx
  obtain ⟨-, hnd, -, -, -⟩ := kahnResult_spec hk hd
  exact appearsBefore_irrefl hnd x (kahn_transGen_appearsBefore hk hd hcyc hx)

theorem length_lt_of_missing {R keys : List Name} (hRnd : R.Nodup)
    (hsub : R ⊆ keys) {x : Name} (hx : x ∈ keys) (hxR : x ∉ R) :
    R.length < keys.length := by
  have hsub2 : R ⊆ keys.erase x := by
    intro a ha
    have hne : a ≠ x := by
      rintro rfl
      exact hxR ha
    rw [List.mem_erase_of_ne hne]
    exact hsub ha
  have hle : R.length ≤ (keys.erase x).length := (hRnd.subperm hsub2).length_le
  have := List.length_erase_of_mem hx
  have hpos : 0 < keys.length := List.length_pos.mpr (List.ne_nil_of_mem hx)
  omega

end KahnCorollaries

section RunLemmas

theorem propagateWire_keys {U : Type} (outs : Dict (NodeOutput U)) (nodes : Dict (Node U))
    (w : Wire) : (propagateWire outs nodes w).map Prod.fst = nodes.map Prod.fst := by
  unfold propagateWire
  split
  · rfl
  · split
    · rfl
    · split
      · rfl
      · next nd heq =>
        apply map_fst_dictSet_of_mem
        rw [← dictGet_isSome_iff, heq]
        rfl

theorem propagateData_keys {U : Type} (wires : List Wire) (outs : Dict (NodeOutput U)) :
    ∀ nodes : Dict (Node U),
      (propagateData wires outs nodes).map Prod.fst = nodes.map Prod.fst := by
  induction wires with
  | nil =>
    intro nodes
    rfl
  | cons w ws ih =>
    intro nodes
    unfold propagateData at *
    rw [List.foldl_cons, ih, propagateWire_keys]

theorem runLoop_cons_none {U : Type} (wires : List Wire) (n : Name) (rest : List Name)
    (nodes : Dict (Node U)) (outs : Dict (NodeOutput U)) (h : dictGet n nodes = none) :
    runLoop wires (n :: rest) nodes outs = (nodes, .error (.keyError n)) := by
  rw [runLoop, h]

theorem runLoop_cons_some {U : Type} (wires : List Wire) (n : Name) (rest : List Name)
    (nodes : Dict (Node U)) (outs : Dict (NodeOutput U)) (nd₀ : Node U)
    (h : dictGet n nodes = some nd₀) :
    runLoop wires (n :: rest) nodes outs =
      (match ((dictGet n (if outs.isEmpty then nodes
            else propagateData wires outs nodes)).getD nd₀).exec
          ((dictGet n (if outs.isEmpty then nodes
            else propagateData wires outs nodes)).getD nd₀).inputs with
        | .error msg => ((if outs.isEmpty then nodes else propagateData wires outs nodes),
            .error (.nodeExecutionError n msg))
        | .ok out => runLoop wires rest
            (if outs.isEmpty then nodes else propagateData wires outs nodes)
            (dictSet n out outs)) := by
  rw [runLoop, h]

theorem runLoop_nodes_keys {U : Type} (wires : List Wire) :
    ∀ (order : List Name) (nodes : Dict (Node U)) (outs : Dict (NodeOutput U)),
      (runLoop wires order nodes outs).1.map Prod.fst = nodes.map Prod.fst := by
  intro order
  induction order with
  | nil =>
    intro nodes outs
    rfl
  | cons n rest ih =>
    intro nodes outs
    have hkeys : (if outs.isEmpty then nodes
        else propagateData wires outs nodes).map Prod.fst = nodes.map Prod.fst := by
      by_cases he : outs.isEmpty
      · rw [if_pos he]
      · rw [if_neg he, propagateData_keys]
    rcases h1 : dictGet n nodes with _ | nd₀
    · rw [runLoop_cons_none wires n rest nodes outs h1]
    · rw [runLoop_cons_some wires n rest nodes outs nd₀ h1]
      rcases h2 : ((dictGet n (if outs.isEmpty then nodes
          else propagateData wires outs nodes)).getD nd₀).exec
          ((dictGet n (if outs.isEmpty then nodes
            else propagateData wires outs nodes)).getD nd₀).inputs with msg | out
      · exact hkeys
      · rw [ih _ _, hkeys]

theorem runLoop_ok_mem {U : Type} (wires : List Wire) :
    ∀ (order : List Name) (nodes : Dict (Node U)) (outs : Dict (NodeOutput U))
      (nodes₁ : Dict (Node U)) (outs₁ : Dict (NodeOutput U)),
      runLoop wires order nodes outs = (nodes₁, .ok outs₁) →
      ∀ n ∈ order, n ∈ nodes.map Prod.fst := by
  intro order
  induction order with
  | nil =>
    intro nodes outs nodes₁ outs₁ h n hn
    simp at hn
  | cons m rest ih =>
    intro nodes outs nodes₁ outs₁ h n hn
    rcases h1 : dictGet m nodes with _ | nd₀
    · rw [runLoop_cons_none wires m rest nodes outs h1] at h
      simp at h
    · have hm : m ∈ nodes.map Prod.fst := by
        rw [← dictGet_isSome_iff, h1]
        rfl
      rw [runLoop_cons_some wires m rest nodes outs nd₀ h1] at h
      rcases h2 : ((dictGet m (if outs.isEmpty then nodes
          else propagateData wires outs nodes)).getD nd₀).exec
          ((dictGet m (if outs.isEmpty then nodes
            else propagateData wires outs nodes)).getD nd₀).inputs with msg | out
      · rw [h2] at h
        simp at h
      · rw [h2] at h
        rcases List.mem_cons.mp hn with rfl | hn2
        · exact hm
        · have hkeys : (if outs.isEmpty then nodes
              else propagateData wires outs nodes).map Prod.fst = nodes.map Prod.fst := by
            by_cases he : outs.isEmpty
            · rw [if_pos he]
            · rw [if_neg he, propagateData_keys]
          have := ih _ _ _ _ h n hn2
          rwa [hkeys] at this

end RunLemmas

section RunStructure

theorem run_empty {U : Type} {g : Graph U} (h : g.nodes = []) :
    g.run = (g, .error .emptyGraph) := by
  unfold Graph.run
  rw [h]
  rfl

theorem isEmpty_false_of_ne_nil {U : Type} {g : Graph U} (h : g.nodes ≠ []) :
    g.nodes.isEmpty = false := by
  rcases hn : g.nodes with _ | ⟨p, rest⟩
  · exact absurd hn h
  · rfl

theorem run_topo_error {U : Type} {g : Graph U} {e : PyErr} (hne : g.nodes ≠ [])
    (h : g.topologicalSort = .error e) : g.run = (g, .error e) := by
  unfold Graph.run
  rw [isEmpty_false_of_ne_nil hne, h]
  rfl

theorem run_topo_ok {U : Type} {g : Graph U} {order : List Name} (hne : g.nodes ≠ [])
    (h : g.topologicalSort = .ok order) :
    g.run = (match runLoop g.wires order g.nodes [] with
      | (nodes₁, .error e) => ({ g with nodes := nodes₁ }, .error e)
      | (nodes₁, .ok outs) =>
          ({ nodes := nodes₁, wires := g.wires,
             execution_cache := some { outputs := outs, execution_order := order } },
           .ok { outputs := outs, execution_order := order })) := by
  unfold Graph.run
  rw [isEmpty_false_of_ne_nil hne, h]
  rfl

theorem run_ok_spec {U : Type} {g : Graph U} {r : ExecutionResult U}
    (h : (g.run).2 = .ok r) :
    g.topologicalSort = .ok r.execution_order ∧
    (∀ n ∈ r.execution_order, n ∈ g.nodes.map Prod.fst) := by
  have hne : g.nodes ≠ [] := by
    intro hnil
    rw [run_empty hnil] at h
    simp at h
  rcases ht : g.topologicalSort with e | order
  · rw [run_topo_error hne ht] at h
    simp at h
  · rw [run_topo_ok hne ht] at h
    rcases hr : runLoop g.wires order g.nodes [] with ⟨nodes₁, res⟩
    rw [hr] at h
    rcases res with e | outs
    · simp at h
    · have hr2 : r = { outputs := outs, execution_order := order } := by
        have h2 : (Except.ok { outputs := outs, execution_order := order } :
            Except PyErr (ExecutionResult U)) = Except.ok r := h
        exact (Except.ok.inj h2).symm
      subst hr2
      refine ⟨rfl, ?_⟩
      intro n hn
      exact runLoop_ok_mem g.wires order g.nodes [] nodes₁ outs hr n hn

theorem run_preserves_struct {U : Type} (g : Graph U) :
    ((g.run).1).nodes.map Prod.fst = g.nodes.map Prod.fst ∧ ((g.run).1).wires = g.wires := by
  by_cases hn : g.nodes = []
  · rw [run_empty hn]
    exact ⟨rfl, rfl⟩
  · have hne : g.nodes ≠ [] := hn
    rcases ht : g.topologicalSort with e | order
    · rw [run_topo_error hne ht]
      exact ⟨rfl, rfl⟩
    · rw [run_topo_ok hne ht]
      rcases hr : runLoop g.wires order g.nodes [] with ⟨nodes₁, res⟩
      have hkeys : nodes₁.map Prod.fst = g.nodes.map Prod.fst := by
        have := runLoop_nodes_keys g.wires order g.nodes []
        rw [hr] at this
        exact this
      rcases res with e | outs
      · exact ⟨hkeys, rfl⟩
      · exact ⟨hkeys, rfl⟩

theorem topologicalSort_congr {U V : Type} {g : Graph U} {g₂ : Graph V}
    (hkeys : g₂.nodes.map Prod.fst = g.nodes.map Prod.fst) (hw : g₂.wires = g.wires) :
    g₂.topologicalSort = g.topologicalSort := by
  unfold Graph.topologicalSort
  rw [hkeys, hw]

end RunStructure

section InitQueueLemmas

theorem filter_map_pair_fst {α β : Type} (l : Dict α) (f : Name × α → β)
    (q : Name × β → Bool) :
    (((l.map fun p => (p.1, f p)).filter q).map Prod.fst) =
      ((l.filter fun p => q (p.1, f p)).map Prod.fst) := by
  induction l with
  | nil => rfl
  | cons p rest ih =>
    simp only [List.map_cons, List.filter_cons]
    by_cases hq : q (p.1, f p)
    · simp only [hq, if_pos, List.map_cons]
      rw [ih]
    · simp only [hq]
      simp only [Bool.false_eq_true, if_false]
      exact ih

theorem filter_map_fst_eq {α : Type} :
    ∀ (l : Dict α) (qd : Name × α → Bool) (qn : Name → Bool),
      (∀ p ∈ l, qd p = qn p.1) →
      ((l.filter qd).map Prod.fst) = (l.map Prod.fst).filter qn := by
  intro l
  induction l with
  | nil =>
    intro qd qn h
    rfl
  | cons p rest ih =>
    intro qd qn h
    simp only [List.filter_cons, List.map_cons]
    rw [h p (List.mem_cons_self p rest)]
    by_cases hq : qn p.1
    · simp only [hq, if_pos, List.map_cons]
      rw [ih qd qn (fun x hx => h x (List.mem_cons_of_mem _ hx))]
    · simp only [hq, Bool.false_eq_true, if_false]
      exact ih qd qn fun x hx => h x (List.mem_cons_of_mem _ hx)

theorem initQueue_eq_roots {names : List Name} {wires : List Wire} (hnd : names.Nodup)
    (hreg : ∀ w ∈ wires, w.target_node ∈ names) :
    initQueue (buildDependencyGraph names wires) =
      names.filter fun t => decide (¬ ∃ w ∈ wires, w.target_node = t) := by
  have hkeys := buildDeps_keys_eq_of_registered hnd hreg
  have hknd : ((buildDependencyGraph names wires).map Prod.fst).Nodup := by
    rw [hkeys]
    exact hnd
  unfold initQueue initInDeg
  rw [filter_map_pair_fst]
  rw [filter_map_fst_eq _ _ (fun t => decide (¬ ∃ w ∈ wires, w.target_node = t)), hkeys]
  intro p hp
  have hget : dictGet p.1 (buildDependencyGraph names wires) = some p.2 := by
    apply dictGet_eq_some_of_mem hknd
    rw [show (p.1, p.2) = p from rfl]
    exact hp
  have hmemiff : ∀ a, a ∈ p.2 ↔ ∃ w ∈ wires, w.source_node = a ∧ w.target_node = p.1 := by
    intro a
    have := buildDeps_mem_iff hnd wires p.1 a
    rw [hget] at this
    exact this
  by_cases hex : ∃ w ∈ wires, w.target_node = p.1
  · obtain ⟨w, hw, hwt⟩ := hex
    have hsrc : w.source_node ∈ p.2 := (hmemiff w.source_node).mpr ⟨w, hw, rfl, hwt⟩
    have hne : p.2 ≠ [] := List.ne_nil_of_mem hsrc
    have hlen : p.2.length ≠ 0 := fun hc => hne (List.length_eq_zero.mp hc)
    have h1 : (((p.2.length : Int)) == 0) = false := by
      rw [beq_eq_false_iff_ne]
      intro hc
      exact hlen (by exact_mod_cast hc)
    rw [h1]
    have h2 : decide (¬ ∃ w ∈ wires, w.target_node = p.1) = false := by
      simp only [decide_eq_false_iff_not, not_not]
      exact ⟨w, hw, hwt⟩
    rw [h2]
  · have hnil : p.2 = [] := by
      rcases hd : p.2 with _ | ⟨a, as⟩
      · rfl
      · exfalso
        have : a ∈ p.2 := by
          rw [hd]
          exact List.mem_cons_self _ _
        obtain ⟨w, hw, -, hwt⟩ := (hmemiff a).mp this
        exact hex ⟨w, hw, hwt⟩
    rw [hnil]
    simp [hex]

end InitQueueLemmas

section TopoSortBridge

theorem topoSortNames_ok {names : List Name} {wires : List Wire}
    (h : (kahnResult (buildDependencyGraph names wires)).length = names.length) :
    topoSortNames names wires = .ok (kahnResult (buildDependencyGraph names wires)) := by
  unfold topoSortNames
  rw [if_pos h]

theorem topoSortNames_error {names : List Name} {wires : List Wire}
    (h : (kahnResult (buildDependencyGraph names wires)).length ≠ names.length) :
    topoSortNames names wires = .error .circularDependency := by
  unfold topoSortNames
  rw [if_neg h]

theorem topoSortNames_ok_inv {names : List Name} {wires : List Wire} {R : List Name}
    (h : topoSortNames names wires = .ok R) :
    R = kahnResult (buildDependencyGraph names wires) ∧
    (kahnResult (buildDependencyGraph names wires)).length = names.length := by
  unfold topoSortNames at h
  by_cases hl : (kahnResult (buildDependencyGraph names wires)).length = names.length
  · rw [if_pos hl] at h
    exact ⟨(Except.ok.inj h).symm, hl⟩
  · rw [if_neg hl] at h
    exact absurd h (by simp)

theorem wireDep_iff_depRelOf {U : Type} (g : Graph U)
    (hnd : (g.nodes.map Prod.fst).Nodup) (a b : Name) :
    wireDep g a b ↔ depRelOf (buildDependencyGraph (g.nodes.map Prod.fst) g.wires) a b := by
  unfold wireDep depRelOf
  rw [buildDeps_mem_iff hnd g.wires b a]

theorem nodes_ne_nil_of_map {U : Type} {g : Graph U} (h : g.nodes.map Prod.fst ≠ []) :
    g.nodes ≠ [] := by
  intro hc
  apply h
  rw [hc]
  rfl

theorem registeredWires_of_all {U : Type} {g : Graph U}
    (h : ∀ w ∈ g.wires, decide (w.source_node ∈ g.nodes.map Prod.fst) = true ∧
      decide (w.target_node ∈ g.nodes.map Prod.fst) = true) : registeredWires g :=
  fun w hw => ⟨of_decide_eq_true (h w hw).1, of_decide_eq_true (h w hw).2⟩

end TopoSortBridge

section ConcreteGraphs

/-- Build a Name from a string literal. -/
def nm (s : String) : Name := s.toList

/-- A node whose execute ignores its inputs and returns a fixed output dict. -/
def constNode {U : Type} (out : Dict (Option U)) : Node U :=
  { name := [], exec := fun _ => .ok { data := out, metadata := [] }, inputs := [] }

/-- A node whose execute returns its received inputs as its output dict. -/
def echoNode {U : Type} : Node U :=
  { name := [],
    exec := fun ins => .ok { data := ins.map fun p => (p.1, some p.2), metadata := [] },
    inputs := [] }

/-- A node whose execute always raises. -/
def failNode {U : Type} : Node U :=
  { name := [], exec := fun _ => .error (nm "boom"), inputs := [] }

/-- Graph for C1: wire A.x -> B.y although A only ever produces output z. -/
def gMissing : Graph Nat :=
  ((((Graph.empty Nat).add (nm "A") (constNode [(nm "z", some 7)])).1.add
      (nm "B") echoNode).1.wire (nm "A.x -> B.y")).1

/-- Graph for C2: single registered node B, wire from the unregistered ghost. -/
def gGhost : Graph Nat :=
  (((Graph.empty Nat).add (nm "B") echoNode).1.wire (nm "ghost.out -> B.y")).1

/-- Graph for C4 and C6 witnesses: two registered nodes wired in a cycle. -/
def gCyc : Graph Nat :=
  (((((Graph.empty Nat).add (nm "a") echoNode).1.add (nm "b") echoNode).1.wire
      (nm "a.x -> b.y")).1.wire (nm "b.y -> a.x")).1

/-- Graph for the C6 counterexample: a registered two-node cycle plus wires to
the unregistered nodes g and h, which pad the schedule to full length. -/
def gPad : Graph Nat :=
  let g1 := ((Graph.empty Nat).add (nm "a") echoNode).1
  let g2 := (g1.add (nm "b") echoNode).1
  let g3 := (g2.add (nm "c") (constNode [(nm "x", some 5)])).1
  let g4 := (g3.wire (nm "a.x -> b.y")).1
  let g5 := (g4.wire (nm "b.y -> a.x")).1
  let g6 := (g5.wire (nm "c.x -> g.y")).1
  (g6.wire (nm "c.x -> h.y")).1

/-- Graph for C4: A feeds B and B's execute raises. -/
def gFail : Graph Nat :=
  ((((Graph.empty Nat).add (nm "A") (constNode [(nm "x", some 1)])).1.add
      (nm "B") failNode).1.wire (nm "A.x -> B.y")).1

/-- Graph for the C5 witness: a single node and no wires. -/
def gSolo : Graph Nat :=
  ((Graph.empty Nat).add (nm "A") (constNode [(nm "x", some 1)])).1

/-- Graph for C8, generic in the two produced values: independent A and B both
produce output x, both wired into C.y in that order, C echoes its inputs. -/
def gFanGen (U : Type) (va vb : U) : Graph U :=
  let g1 := ((Graph.empty U).add (nm "A") (constNode [(nm "x", some va)])).1
  let g2 := (g1.add (nm "B") (constNode [(nm "x", some vb)])).1
  let g3 := (g2.add (nm "C") echoNode).1
  let g4 := (g3.wire (nm "A.x -> C.y")).1
  (g4.wire (nm "B.x -> C.y")).1

end ConcreteGraphs

/-- Claim C9: for every connection whose target omits the port (no dot in the
target spec), the parsed wire's target port defaults to the source's port
name, so the wire is identical in all four fields to the wire parsed with the
explicit target port: Wire(s, t) equals Wire(s, t ++ "." ++ source_port). -/
theorem claim_C9_target_port_defaults (source target sn so : Name)
    (hsrc : splitFirst ['.'] source = some (sn, so))
    (htgt : ('.' : Char) ∉ target) :
    mkWire source target = Except.ok
      { source_node := sn, source_output := so, target_node := target, target_input := so } ∧
    mkWire source (target ++ '.' :: so) = mkWire source target := by
  have hnone : splitFirst ['.'] target = none := (splitFirst_eq_none_iff '.' target).mpr htgt
  have hsplit : splitFirst ['.'] (target ++ '.' :: so) = some (target, so) :=
    splitFirst_single_append so htgt
  constructor
  · unfold mkWire
    rw [hsrc, hnone]
  · unfold mkWire
    rw [hsrc, hsplit, hnone]

/-- Witness for C9 at the spec's example: parsing a.out -> b equals parsing
a.out -> b.out and the target port is out. -/
theorem claim_C9_witness :
    splitFirst ['.'] (nm "a.out") = some (nm "a", nm "out") ∧
    (('.' : Char) ∉ nm "b") ∧
    (mkWire (nm "a.out") (nm "b") = Except.ok
      { source_node := nm "a", source_output := nm "out",
        target_node := nm "b", target_input := nm "out" } ∧
     mkWire (nm "a.out") (nm "b" ++ '.' :: nm "out") = mkWire (nm "a.out") (nm "b")) := by
  refine ⟨by decide, by decide, ?_⟩
  exact claim_C9_target_port_defaults (nm "a.out") (nm "b") (nm "a") (nm "out")
    (by decide) (by decide)

/-- Claim C10: a None-valued output is indistinguishable from a missing one at
the propagation interface: when the source node's NodeOutput maps the wire's
source port to the Python value None, NodeOutput.get returns None, propagation
takes the missing-output branch, and the wire assigns nothing, so a node
cannot pass None downstream through a wire. -/
theorem claim_C10_none_output_skipped {U : Type} (outs : Dict (NodeOutput U))
    (nodes : Dict (Node U)) (w : Wire) (so : NodeOutput U)
    (hso : dictGet w.source_node outs = some so)
    (hnone : dictGet w.source_output so.data = some none) :
    so.get w.source_output = none ∧ propagateWire outs nodes w = nodes := by
  have hget : so.get w.source_output = none := by
    unfold NodeOutput.get
    rw [hnone]
  refine ⟨hget, ?_⟩
  unfold propagateWire
  rw [hso]
  simp only [hget]

/-- Witness for C10: a concrete source output storing None on port x is
skipped by propagation. -/
theorem claim_C10_witness :
    dictGet (nm "A") [((nm "A"), ({ data := [(nm "x", none)], metadata := [] } :
        NodeOutput Nat))] =
      some { data := [(nm "x", none)], metadata := [] } ∧
    dictGet (nm "x") [((nm "x"), (none : Option Nat))] = some none ∧
    (({ data := [(nm "x", none)], metadata := [] } : NodeOutput Nat).get (nm "x") = none ∧
      propagateWire [((nm "A"), ({ data := [(nm "x", none)], metadata := [] } :
          NodeOutput Nat))]
        [((nm "B"), (echoNode : Node Nat))]
        { source_node := nm "A", source_output := nm "x",
          target_node := nm "B", target_input := nm "y" } =
        [((nm "B"), (echoNode : Node Nat))]) := by
  refine ⟨by decide, by decide, ?_⟩
  exact claim_C10_none_output_skipped
    [((nm "A"), ({ data := [(nm "x", none)], metadata := [] } : NodeOutput Nat))]
    [((nm "B"), (echoNode : Node Nat))]
    { source_node := nm "A", source_output := nm "x",
      target_node := nm "B", target_input := nm "y" }
    { data := [(nm "x", none)], metadata := [] }
    (by decide) (by decide)

/-- Claim C1 (code bug evidence): in gMissing the wire A.x -> B.y names an
output A never produces, yet run() completes normally: propagation raises the
missing-output ValueError inside a bare try/except that discards it, so no
error reaches the caller, B runs with empty inputs, and the run returns ok —
the claim (and the spec) say the error must surface and abort the run. -/
theorem claim_C1_missing_output_swallowed :
    (gMissing.run).2 = Except.ok
      { outputs := [(nm "A", { data := [(nm "z", some 7)], metadata := [] }),
                    (nm "B", { data := [], metadata := [] })],
        execution_order := [nm "A", nm "B"] } ∧
    ((gMissing.run).1.nodes.map fun p => (p.1, p.2.inputs)) =
      [(nm "A", []), (nm "B", [])] := ⟨rfl, rfl⟩

set_option maxHeartbeats 1000000 in
/-- Claim C8: fan-in is last-registered-wins.  With wires A.x -> C.y then
B.x -> C.y in that order, A and B independent and producing x = va and
x = vb, C executes with pending input y equal to vb (B's output), for all
values va and vb: the second wire's assignment overwrites the first. -/
theorem claim_C8_fan_in_last_wins {U : Type} (va vb : U) :
    ((gFanGen U va vb).run).2 = Except.ok
      { outputs := [(nm "A", { data := [(nm "x", some va)], metadata := [] }),
                    (nm "B", { data := [(nm "x", some vb)], metadata := [] }),
                    (nm "C", { data := [(nm "y", some vb)], metadata := [] })],
        execution_order := [nm "A", nm "B", nm "C"] } ∧
    ((dictGet (nm "C") (((gFanGen U va vb).run).1.nodes)).map fun nd => nd.inputs) =
      some [(nm "y", vb)] := by
  have hg : gFanGen U va vb =
      { nodes :=
          [(nm "A",
            { name := nm "A",
              exec := fun _ => Except.ok { data := [(nm "x", some va)], metadata := [] },
              inputs := [] }),
           (nm "B",
            { name := nm "B",
              exec := fun _ => Except.ok { data := [(nm "x", some vb)], metadata := [] },
              inputs := [] }),
           (nm "C",
            { name := nm "C",
              exec := fun ins => Except.ok
                { data := ins.map fun p => (p.1, some p.2), metadata := [] },
              inputs := [] })],
        wires :=
          [{ source_node := nm "A", source_output := nm "x",
             target_node := nm "C", target_input := nm "y" },
           { source_node := nm "B", source_output := nm "x",
             target_node := nm "C", target_input := nm "y" }],
        execution_cache := none } := rfl
  rw [hg]
  exact ⟨rfl, rfl⟩

/-- Claim C3 counterexample: wire() with the malformed fan-in connection
string a.x, b -> c.y (second source lacks a port) raises the syntax
ValueError but leaves the wire for the first source appended: the wire list
is no longer what it was before the call, refuting build-time atomicity. -/
theorem claim_C3_counterexample :
    ((Graph.empty Nat).wire (nm "a.x, b -> c.y")).2 =
      some (PyErr.sourceMustSpecifyOutput (nm "b")) ∧
    ((Graph.empty Nat).wire (nm "a.x, b -> c.y")).1.wires =
      [{ source_node := nm "a", source_output := nm "x",
         target_node := nm "c", target_input := nm "y" }] ∧
    (Graph.empty Nat).wires = [] := ⟨rfl, rfl, rfl⟩

/-- Claim C3 as amended: add() with a duplicate name raises and leaves the
graph exactly unchanged; wire() with no arrow raises and leaves the graph
exactly unchanged; and any failing wire() call leaves the node registry and
cache untouched and appends at most wires for the earlier sources of a
comma-separated fan-in list — the wire list only changes when the source
part of the connection contains a comma. -/
theorem claim_C3_amended {U : Type} (g : Graph U) :
    (∀ name node, (dictGet name g.nodes).isSome = true →
      g.add name node = (g, some (PyErr.duplicateNode name))) ∧
    (∀ conn, splitFirst ['-', '>'] conn = none →
      g.wire conn = (g, some (PyErr.invalidConnection conn))) ∧
    (∀ conn g₁ e, g.wire conn = (g₁, some e) →
      g₁.nodes = g.nodes ∧ g₁.execution_cache = g.execution_cache ∧
      ∃ ws, g₁.wires = g.wires ++ ws ∧
        (ws ≠ [] → ∃ pr, splitFirst ['-', '>'] conn = some pr ∧
          (splitFirst [','] (stripChars pr.1)).isSome = true)) := by
  refine ⟨?_, ?_, ?_⟩
  · intro name node h
    unfold Graph.add
    rw [h]
    rfl
  · intro conn h
    unfold Graph.wire
    rw [h]
  · intro conn g₁ e h
    unfold Graph.wire at h
    split at h
    · injection h with h1 h2
      subst h1
      exact ⟨rfl, rfl, [], by simp, fun hc => absurd rfl hc⟩
    · next rawS rawT harr =>
      by_cases hcomma : (splitFirst [','] (stripChars rawS)).isSome = true
      · rw [if_pos hcomma] at h
        obtain ⟨h1, h2, ws, h3⟩ := wireFanIn_error_shape _ g _ g₁ e h
        exact ⟨h1, h2, ws, h3, fun _ => ⟨(rawS, rawT), harr, hcomma⟩⟩
      · rw [if_neg hcomma] at h
        split at h
        · injection h with h1 h2
          subst h1
          exact ⟨rfl, rfl, [], by simp, fun hc => absurd rfl hc⟩
        · injection h with h1 h2
          exact absurd h2 (by simp)

/-- Witness for C3 at concrete inputs: a duplicate add on gSolo raises and
leaves the graph unchanged, and the failing fan-in wire call on the empty
graph keeps the registry and cache and appends only the first-source wire. -/
theorem claim_C3_witness :
    (dictGet (nm "A") gSolo.nodes).isSome = true ∧
    gSolo.add (nm "A") echoNode = (gSolo, some (PyErr.duplicateNode (nm "A"))) := by
  have h : (dictGet (nm "A") gSolo.nodes).isSome = true := rfl
  exact ⟨h, (claim_C3_amended gSolo).1 (nm "A") echoNode h⟩

/-- Claim C4 counterexample: in gFail node A runs, propagation assigns B's
pending input y, then B's execute raises; the run fails with the wrapped
RuntimeError but B's pending-input mapping is not what it was before the run,
so state does survive the failed run. -/
theorem claim_C4_counterexample :
    (gFail.run).2 = Except.error (PyErr.nodeExecutionError (nm "B") (nm "boom")) ∧
    ((gFail.run).1.nodes.map fun p => (p.1, p.2.inputs)) =
      [(nm "A", []), (nm "B", [(nm "y", 1)])] ∧
    (gFail.nodes.map fun p => (p.1, p.2.inputs)) = [(nm "A", []), (nm "B", [])] ∧
    ((gFail.run).1.nodes.map fun p => (p.1, p.2.inputs)) ≠
      (gFail.nodes.map fun p => (p.1, p.2.inputs)) := ⟨rfl, rfl, rfl, by decide⟩

/-- Claim C4 as amended: only runs that fail before any node executes leave
no trace — a run on an empty graph or one whose scheduling fails (cycle
error) returns the graph exactly as it was, with every node's pending-input
mapping unchanged; pending inputs assigned by propagation before a node
failure persist (claim_C4_counterexample), so a later run() does not start
fresh. -/
theorem claim_C4_amended {U : Type} (g : Graph U) :
    (g.nodes = [] → g.run = (g, Except.error PyErr.emptyGraph)) ∧
    (∀ e, g.nodes ≠ [] → g.topologicalSort = Except.error e →
      g.run = (g, Except.error e)) :=
  ⟨run_empty, fun _ hne he => run_topo_error hne he⟩

/-- Witness for C4 at the concrete cycle graph: scheduling fails and the
graph comes back exactly unchanged. -/
theorem claim_C4_witness :
    gCyc.nodes ≠ [] ∧ gCyc.topologicalSort = Except.error PyErr.circularDependency ∧
    gCyc.run = (gCyc, Except.error PyErr.circularDependency) := by
  have hne : gCyc.nodes ≠ [] := nodes_ne_nil_of_map (by decide)
  exact ⟨hne, rfl, (claim_C4_amended gCyc).2 PyErr.circularDependency hne rfl⟩

/-- Claim C2 counterexample: wiring ghost.out -> B.y with ghost never added
makes run() fail with the circular-dependency ValueError raised at scheduling
time.  No unresolved-wire-endpoint or missing-output error exists in the
code, and propagation is never reached, refuting the claim as stated. -/
theorem claim_C2_counterexample :
    (gGhost.run).2 = Except.error PyErr.circularDependency ∧
    gGhost.topologicalSort = Except.error PyErr.circularDependency := ⟨rfl, rfl⟩

/-- Claim C2 as amended: a wire whose target is registered but whose source
is not can never be silently dropped — run() always fails (with the
scheduling-time circular-dependency error, as for ghost.out -> B.y, or with
a key lookup error when unregistered wire targets pad the schedule), never
with a propagation-time error and never completing normally. -/
theorem claim_C2_amended {U : Type} (g : Graph U)
    (hnd : (g.nodes.map Prod.fst).Nodup)
    (hbad : ∃ w ∈ g.wires, w.target_node ∈ g.nodes.map Prod.fst ∧
      w.source_node ∉ g.nodes.map Prod.fst) :
    ∃ e, (g.run).2 = Except.error e := by
  rcases hr : (g.run).2 with e | r
  · exact ⟨e, rfl⟩
  · exfalso
    obtain ⟨ht, hmem⟩ := run_ok_spec hr
    obtain ⟨hR, hlen⟩ := topoSortNames_ok_inv ht
    have hk := buildDeps_keys_nodup hnd g.wires
    have hd := buildDeps_values_nodup (g.nodes.map Prod.fst) g.wires hnd
    obtain ⟨-, hndR, hsubR, -, htopo⟩ := kahnResult_spec hk hd
    obtain ⟨w, hw, hwt, hws⟩ := hbad
    -- all scheduled nodes are registered, and the schedule is full length
    have hRnames : ∀ n ∈ kahnResult (buildDependencyGraph (g.nodes.map Prod.fst) g.wires),
        n ∈ g.nodes.map Prod.fst := by
      intro n hn
      apply hmem
      rw [hR]
      exact hn
    -- hence the schedule is a permutation of the registered names
    have hsubperm : List.Subperm
        (kahnResult (buildDependencyGraph (g.nodes.map Prod.fst) g.wires))
        (g.nodes.map Prod.fst) := hndR.subperm fun x hx => hRnames x hx
    have hperm := hsubperm.perm_of_length_le (by
      rw [hlen, List.length_map])
    -- so the wire's registered target was scheduled
    have htR : w.target_node ∈
        kahnResult (buildDependencyGraph (g.nodes.map Prod.fst) g.wires) :=
      hperm.symm.subset hwt
    -- the unregistered source is a recorded dependency of the target
    have hdep : w.source_node ∈
        (dictGet w.target_node (buildDependencyGraph (g.nodes.map Prod.fst) g.wires)).getD
          [] :=
      (buildDeps_mem_iff hnd g.wires w.target_node w.source_node).mpr ⟨w, hw, rfl, rfl⟩
    obtain ⟨ds, hpair, hmemds⟩ := depRelOf_key hdep
    have hbefore := htopo w.target_node ds hpair htR w.source_node hmemds
    exact hws (hRnames w.source_node (appearsBefore_mem_left hbefore))

/-- Witness for C2 at the ghost graph. -/
theorem claim_C2_witness :
    (gGhost.nodes.map Prod.fst).Nodup ∧
    (∃ w ∈ gGhost.wires, w.target_node ∈ gGhost.nodes.map Prod.fst ∧
      w.source_node ∉ gGhost.nodes.map Prod.fst) ∧
    (∃ e, (gGhost.run).2 = Except.error e) :=
  ⟨by decide, by decide, claim_C2_amended gGhost (by decide) (by decide)⟩

/-- Claim C5: for every graph whose nodes form a dict (distinct names), whose
wires reference only registered nodes and are acyclic, scheduling succeeds
and yields an order that is a permutation of all registered node names and a
topological order — every node appears after every node it transitively
depends on via wires — and any successful run() returns exactly that order. -/
theorem claim_C5_topological_order {U : Type} (g : Graph U)
    (hnd : (g.nodes.map Prod.fst).Nodup)
    (hreg : registeredWires g)
    (hacyc : ∀ x, ¬ Relation.TransGen (wireDep g) x x) :
    ∃ order, g.topologicalSort = Except.ok order ∧
      order.Perm (g.nodes.map Prod.fst) ∧
      (∀ a b, Relation.TransGen (wireDep g) a b → appearsBefore order a b) ∧
      (∀ r, (g.run).2 = Except.ok r → r.execution_order = order) := by
  have hk := buildDeps_keys_nodup hnd g.wires
  have hd := buildDeps_values_nodup (g.nodes.map Prod.fst) g.wires hnd
  have hkeys := buildDeps_keys_eq_of_registered hnd (fun w hw => (hreg w hw).2)
  have hacyc2 : ∀ x, ¬ Relation.TransGen
      (depRelOf (buildDependencyGraph (g.nodes.map Prod.fst) g.wires)) x x := by
    intro x hx
    apply hacyc x
    exact Relation.TransGen.mono (fun a b hab => (wireDep_iff_depRelOf g hnd a b).mpr hab) hx
  have hclosed : ∀ t ds, (t, ds) ∈ buildDependencyGraph (g.nodes.map Prod.fst) g.wires →
      ∀ a ∈ ds, a ∈ (buildDependencyGraph (g.nodes.map Prod.fst) g.wires).map Prod.fst := by
    intro t ds hpair a ha
    have hget := dictGet_eq_some_of_mem hk hpair
    have : a ∈ (dictGet t (buildDependencyGraph (g.nodes.map Prod.fst) g.wires)).getD [] := by
      rw [hget]
      exact ha
    obtain ⟨w, hw, hs, -⟩ := (buildDeps_mem_iff hnd g.wires t a).mp this
    rw [hkeys]
    exact hs ▸ (hreg w hw).1
  have hcompl := kahn_complete hk hd hclosed hacyc2
  obtain ⟨-, hndR, hsubR, -, -⟩ := kahnResult_spec hk hd
  have hnamesR : ∀ t ∈ g.nodes.map Prod.fst,
      t ∈ kahnResult (buildDependencyGraph (g.nodes.map Prod.fst) g.wires) := by
    intro t ht
    apply hcompl
    rw [hkeys]
    exact ht
  have hRnames : ∀ t ∈ kahnResult (buildDependencyGraph (g.nodes.map Prod.fst) g.wires),
      t ∈ g.nodes.map Prod.fst := by
    intro t ht
    have := hsubR t ht
    rwa [hkeys] at this
  have hperm : (kahnResult (buildDependencyGraph (g.nodes.map Prod.fst) g.wires)).Perm
      (g.nodes.map Prod.fst) :=
    (hndR.subperm fun x hx => hRnames x hx).antisymm
      ((hnd.subperm fun x hx => hnamesR x hx))
  have hlen : (kahnResult (buildDependencyGraph (g.nodes.map Prod.fst) g.wires)).length =
      (g.nodes.map Prod.fst).length := hperm.length_eq
  have hok : g.topologicalSort =
      Except.ok (kahnResult (buildDependencyGraph (g.nodes.map Prod.fst) g.wires)) := by
    unfold Graph.topologicalSort
    exact topoSortNames_ok (by rw [hlen, List.length_map])
  refine ⟨kahnResult (buildDependencyGraph (g.nodes.map Prod.fst) g.wires), hok, hperm,
    ?_, ?_⟩
  · intro a b htg
    have hbmem : b ∈ g.nodes.map Prod.fst := by
      rcases htg with hstep | ⟨-, hstep⟩
      all_goals
        obtain ⟨w, hw, -, hwt⟩ := hstep
        exact hwt ▸ (hreg w hw).2
    exact kahn_transGen_appearsBefore hk hd
      (Relation.TransGen.mono (fun x y hxy => (wireDep_iff_depRelOf g hnd x y).mp hxy) htg)
      (hnamesR b hbmem)
  · intro r hr
    have := (run_ok_spec hr).1
    rw [hok] at this
    exact (Except.ok.inj this).symm

/-- Witness for C5 at the one-node graph with no wires. -/
theorem claim_C5_witness :
    (gSolo.nodes.map Prod.fst).Nodup ∧ registeredWires gSolo ∧
    (∀ x, ¬ Relation.TransGen (wireDep gSolo) x x) ∧
    (∃ order, gSolo.topologicalSort = Except.ok order ∧
      order.Perm (gSolo.nodes.map Prod.fst) ∧
      (∀ a b, Relation.TransGen (wireDep gSolo) a b → appearsBefore order a b) ∧
      (∀ r, (gSolo.run).2 = Except.ok r → r.execution_order = order)) := by
  have hnowire : ∀ a b, ¬ wireDep gSolo a b := by
    rintro a b ⟨w, hw, -⟩
    exact absurd hw (List.not_mem_nil w)
  have hacyc : ∀ x, ¬ Relation.TransGen (wireDep gSolo) x x := by
    intro x hx
    cases hx with
    | single h => exact hnowire _ _ h
    | tail _ h => exact hnowire _ _ h
  have hreg : registeredWires gSolo := by
    intro w hw
    exact absurd hw (List.not_mem_nil w)
  exact ⟨by decide, hreg, hacyc, claim_C5_topological_order gSolo (by decide) hreg hacyc⟩

/-- Claim C6 counterexample: gPad wires the registered nodes a and b in a
cycle, yet run() fails with the KeyError for the unregistered wire target g
rather than the circular-dependency error: the wires to the unregistered
nodes g and h pad the schedule to full length, so the cycle check passes
and the run aborts at the node lookup instead. -/
theorem claim_C6_counterexample :
    Relation.TransGen (wireDep gPad) (nm "a") (nm "a") ∧
    (gPad.run).2 = Except.error (PyErr.keyError (nm "g")) := by
  constructor
  · have h1 : wireDep gPad (nm "a") (nm "b") :=
      ⟨{ source_node := nm "a", source_output := nm "x",
         target_node := nm "b", target_input := nm "y" }, by decide, rfl, rfl⟩
    have h2 : wireDep gPad (nm "b") (nm "a") :=
      ⟨{ source_node := nm "b", source_output := nm "y",
         target_node := nm "a", target_input := nm "x" }, by decide, rfl, rfl⟩
    exact Relation.TransGen.head h1 (Relation.TransGen.single h2)
  · rfl

/-- Claim C6 as amended: for every graph whose wires reference only
registered nodes, a wire cycle makes run() terminate with the
circular-dependency error (never a partial order); and on every input the
scheduling loop terminates — its fueled model is stable under any extra
fuel beyond the bound topoSortNames uses. -/
theorem claim_C6_cycle_detected :
    (∀ (U : Type) (g : Graph U), (g.nodes.map Prod.fst).Nodup → registeredWires g →
      (∃ x, Relation.TransGen (wireDep g) x x) →
      (g.run).2 = Except.error PyErr.circularDependency ∧
      g.topologicalSort = Except.error PyErr.circularDependency) ∧
    (∀ (names : List Name) (wires : List Wire), names.Nodup → ∀ extra,
      kahnLoop (buildDependencyGraph names wires)
        ((buildDependencyGraph names wires).length + 1 + extra)
        (initQueue (buildDependencyGraph names wires))
        (initInDeg (buildDependencyGraph names wires)) [] =
      kahnResult (buildDependencyGraph names wires)) := by
  constructor
  · intro U g hnd hreg hcyc
    obtain ⟨x, hcyc⟩ := hcyc
    have hk := buildDeps_keys_nodup hnd g.wires
    have hd := buildDeps_values_nodup (g.nodes.map Prod.fst) g.wires hnd
    have hkeys := buildDeps_keys_eq_of_registered hnd (fun w hw => (hreg w hw).2)
    have hxnames : x ∈ g.nodes.map Prod.fst := by
      rcases hcyc with hstep | ⟨-, hstep⟩
      all_goals
        obtain ⟨w, hw, -, hwt⟩ := hstep
        exact hwt ▸ (hreg w hw).2
    have hcyc2 : Relation.TransGen
        (depRelOf (buildDependencyGraph (g.nodes.map Prod.fst) g.wires)) x x :=
      Relation.TransGen.mono (fun a b hab => (wireDep_iff_depRelOf g hnd a b).mp hab) hcyc
    have hxnotR := kahn_cycle_not_mem hk hd hcyc2
    obtain ⟨-, hndR, hsubR, -, -⟩ := kahnResult_spec hk hd
    have hlt : (kahnResult (buildDependencyGraph (g.nodes.map Prod.fst) g.wires)).length <
        (g.nodes.map Prod.fst).length := by
      apply length_lt_of_missing hndR _ _ hxnotR
      · intro a ha
        have := hsubR a ha
        rwa [hkeys] at this
      · exact hxnames
    have herr : g.topologicalSort = Except.error PyErr.circularDependency := by
      unfold Graph.topologicalSort
      apply topoSortNames_error
      rw [List.length_map] at hlt ⊢
      omega
    have hne : g.nodes ≠ [] :=
      nodes_ne_nil_of_map (List.ne_nil_of_mem hxnames)
    refine ⟨?_, herr⟩
    rw [run_topo_error hne herr]
  · intro names wires hnd extra
    exact kahnResult_fuel_stable (buildDeps_keys_nodup hnd wires)
      (buildDeps_values_nodup names wires hnd) extra

/-- Witness for C6 at the two-node cycle graph and a concrete fuel margin. -/
theorem claim_C6_witness :
    (gCyc.nodes.map Prod.fst).Nodup ∧ registeredWires gCyc ∧
    (∃ x, Relation.TransGen (wireDep gCyc) x x) ∧
    ((gCyc.run).2 = Except.error PyErr.circularDependency ∧
     gCyc.topologicalSort = Except.error PyErr.circularDependency) := by
  have h1 : wireDep gCyc (nm "a") (nm "b") :=
    ⟨{ source_node := nm "a", source_output := nm "x",
       target_node := nm "b", target_input := nm "y" }, by decide, rfl, rfl⟩
  have h2 : wireDep gCyc (nm "b") (nm "a") :=
    ⟨{ source_node := nm "b", source_output := nm "y",
       target_node := nm "a", target_input := nm "x" }, by decide, rfl, rfl⟩
  have hcyc : ∃ x, Relation.TransGen (wireDep gCyc) x x :=
    ⟨nm "a", Relation.TransGen.head h1 (Relation.TransGen.single h2)⟩
  exact ⟨by decide, registeredWires_of_all (by decide), hcyc,
    claim_C6_cycle_detected.1 Nat gCyc (by decide) (registeredWires_of_all (by decide)) hcyc⟩

/-- Claim C7: execution is deterministic — two successive run() calls with no
intervening add() or wire() produce identical execution orders — and, for a
graph with distinct node names and registered wire endpoints, the scheduled
order starts with exactly the registered nodes that no wire targets, in
registration order (the in-degree-zero queue seed, the tie-break that makes
the order deterministic). -/
theorem claim_C7_deterministic {U : Type} (g : Graph U) :
    (∀ r₁ r₂, (g.run).2 = Except.ok r₁ → (((g.run).1).run).2 = Except.ok r₂ →
      r₁.execution_order = r₂.execution_order) ∧
    ((g.nodes.map Prod.fst).Nodup → registeredWires g →
      ∀ order, g.topologicalSort = Except.ok order →
        ((g.nodes.map Prod.fst).filter
          fun t => decide (¬ ∃ w ∈ g.wires, w.target_node = t)) <+: order) := by
  constructor
  · intro r₁ r₂ h₁ h₂
    have ht₁ := (run_ok_spec h₁).1
    have ht₂ := (run_ok_spec h₂).1
    obtain ⟨hkeys, hwires⟩ := run_preserves_struct g
    have hcongr := topologicalSort_congr hkeys hwires
    rw [hcongr, ht₁] at ht₂
    exact Except.ok.inj ht₂
  · intro hnd hreg order hok
    obtain ⟨hR, -⟩ := topoSortNames_ok_inv hok
    have hk := buildDeps_keys_nodup hnd g.wires
    have hd := buildDeps_values_nodup (g.nodes.map Prod.fst) g.wires hnd
    obtain ⟨hpre, -, -, -, -⟩ := kahnResult_spec hk hd
    rw [← initQueue_eq_roots hnd (fun w hw => (hreg w hw).2), hR]
    exact hpre

/-- Witness for C7: two successive runs of gMissing return the same order,
and the seed of the fan-in graph's schedule is its source nodes A and B. -/
theorem claim_C7_witness :
    (gMissing.run).2 = Except.ok
      { outputs := [(nm "A", { data := [(nm "z", some 7)], metadata := [] }),
                    (nm "B", { data := [], metadata := [] })],
        execution_order := [nm "A", nm "B"] } ∧
    (((gMissing.run).1).run).2 = Except.ok
      { outputs := [(nm "A", { data := [(nm "z", some 7)], metadata := [] }),
                    (nm "B", { data := [], metadata := [] })],
        execution_order := [nm "A", nm "B"] } ∧
    ({ outputs := [(nm "A", { data := [(nm "z", some 7)], metadata := [] }),
                   (nm "B", { data := [], metadata := [] })],
       execution_order := [nm "A", nm "B"] } : ExecutionResult Nat).execution_order =
      ({ outputs := [(nm "A", { data := [(nm "z", some 7)], metadata := [] }),
                     (nm "B", { data := [], metadata := [] })],
         execution_order := [nm "A", nm "B"] } : ExecutionResult Nat).execution_order ∧
    ((gMissing.nodes.map Prod.fst).Nodup ∧ registeredWires gMissing ∧
      gMissing.topologicalSort = Except.ok [nm "A", nm "B"] ∧
      ((gMissing.nodes.map Prod.fst).filter
        fun t => decide (¬ ∃ w ∈ gMissing.wires, w.target_node = t)) <+: [nm "A", nm "B"]) := by
  refine ⟨rfl, rfl, ?_, by decide, registeredWires_of_all (by decide), rfl, ?_⟩
  · exact (claim_C7_deterministic gMissing).1 _ _ rfl rfl
  · exact (claim_C7_deterministic gMissing).2 (by decide) (registeredWires_of_all (by decide))
      [nm "A", nm "B"] rfl

end Foton
